import Mathlib

/-!
Verification development for the `checkpointer` repository: a shallow
embedding, in Lean, of the parts of the code that the claims concern —
the structural hasher (`object_hash.py`), the call hasher and per-call
state machine (`checkpoint.py`), the storage backends
(`storages/storage.py`, `storages/memory_storage.py`,
`storages/pickle_storage.py`) and the identity machinery
(`fn_ident.py`, `FunctionIdent`).

Modelling conventions:
- Python values are the inductive `PyVal`; only the fragment that the
  claims exercise is represented (numbers, strings, tuples, lists,
  string-keyed mappings, the `AwaitableValue` wrapper and coroutine
  objects).  Mapping keys are restricted to strings, so the
  `dict-unsortable` fallback branch of `object_hash.py` is never taken
  in the model.
- The BLAKE2b hash is modelled ideally: an `ObjectHash` accumulates the
  exact byte string that the code feeds to `hashlib.blake2b`, and two
  digests are considered equal exactly when their (digest_size, stream)
  pairs are equal.  This is the standard collision-free reading of a
  cryptographic hash; every equality / inequality proved below is a
  statement about the streams the code hashes.
- Python exceptions are the inductive `PyErr`; fallible operations
  return `Except PyErr`.  Storage backends are explicit state-passing
  translations of the corresponding classes.
-/

namespace Checkpointer

/-! ## Association-list helpers (Python `dict` as an insertion-ordered list) -/

/-- Lookup of the first binding of `k`, like `d[k]`/`d.get(k)`. -/
def alistGet {κ β : Type} [DecidableEq κ] : List (κ × β) → κ → Option β
  | [], _ => Option.none
  | (k0, v0) :: t, k => if k0 = k then some v0 else alistGet t k

/-- Python `d[k] = v`: replace the binding in place when present, append otherwise. -/
def alistSet {κ β : Type} [DecidableEq κ] : List (κ × β) → κ → β → List (κ × β)
  | [], k, v => [(k, v)]
  | (k0, v0) :: t, k, v => if k0 = k then (k, v) :: t else (k0, v0) :: alistSet t k v

/-- Python `d.pop(k, None)`: remove the binding of `k` when present. -/
def alistErase {κ β : Type} [DecidableEq κ] : List (κ × β) → κ → List (κ × β)
  | [], _ => []
  | (k0, v0) :: t, k => if k0 = k then t else (k0, v0) :: alistErase t k

/-- Python `d[k] = f(d[k])`: rewrite the binding of `k` through `f` when present.
The `KeyError` raised on an absent key (a malformed call) is outside the
modelled fragment: the model leaves the list unchanged instead. -/
def alistMapAt {κ β : Type} [DecidableEq κ] : List (κ × β) → κ → (β → β) → List (κ × β)
  | [], _, _ => []
  | (k0, v0) :: t, k, f => if k0 = k then (k0, f v0) :: t else (k0, v0) :: alistMapAt t k f

/-- Keys of an association list, in insertion order. -/
def alistKeys {κ β : Type} : List (κ × β) → List κ :=
  List.map Prod.fst

/-- Python `{**m, **l}` realised as repeated item assignment, later entries overriding. -/
def pyMerge {κ β : Type} [DecidableEq κ] (m l : List (κ × β)) : List (κ × β) :=
  l.foldl (fun acc e => alistSet acc e.1 e.2) m

theorem alistGet_set {κ β : Type} [DecidableEq κ] (l : List (κ × β)) (k k' : κ) (v : β) :
    alistGet (alistSet l k v) k' = if k' = k then some v else alistGet l k' := by
  induction l with
  | nil =>
    rcases eq_or_ne k' k with h | h
    · subst h; simp [alistSet, alistGet]
    · simp [alistSet, alistGet, h, Ne.symm h]
  | cons e t ih =>
    obtain ⟨k0, v0⟩ := e
    rcases eq_or_ne k0 k with h0 | h0
    · subst h0
      rcases eq_or_ne k' k0 with h | h
      · subst h; simp [alistSet, alistGet]
      · simp [alistSet, alistGet, h, Ne.symm h]
    · rcases eq_or_ne k' k0 with h | h
      · subst h
        simp [alistSet, alistGet, h0, Ne.symm h0]
      · simp [alistSet, alistGet, h0, Ne.symm h, h, ih]

theorem alistGet_mapAt {κ β : Type} [DecidableEq κ] (l : List (κ × β)) (k k' : κ) (f : β → β) :
    alistGet (alistMapAt l k f) k' =
      if k' = k then (alistGet l k).map f else alistGet l k' := by
  induction l with
  | nil =>
    rcases eq_or_ne k' k with h | h <;> simp [alistMapAt, alistGet, h]
  | cons e t ih =>
    obtain ⟨k0, v0⟩ := e
    rcases eq_or_ne k0 k with h0 | h0
    · subst h0
      rcases eq_or_ne k' k0 with h | h
      · subst h; simp [alistMapAt, alistGet]
      · simp [alistMapAt, alistGet, h, Ne.symm h]
    · rcases eq_or_ne k' k0 with h | h
      · subst h
        simp [alistMapAt, alistGet, h0, Ne.symm h0]
      · simp [alistMapAt, alistGet, h0, Ne.symm h, h, ih]

theorem alistKeys_set {κ β : Type} [DecidableEq κ] (l : List (κ × β)) (k : κ) (v : β) :
    alistKeys (alistSet l k v) =
      if (alistGet l k).isSome then alistKeys l else alistKeys l ++ [k] := by
  induction l with
  | nil => simp [alistSet, alistGet, alistKeys]
  | cons e t ih =>
    obtain ⟨k0, v0⟩ := e
    rcases eq_or_ne k0 k with h0 | h0
    · subst h0
      simp [alistSet, alistGet, alistKeys]
    · simp only [alistSet, if_neg h0, alistGet, alistKeys, List.map_cons]
      rw [show alistKeys (alistSet t k v) = List.map Prod.fst (alistSet t k v) from rfl] at ih
      rw [ih]
      by_cases hs : (alistGet t k).isSome <;> simp [hs, alistKeys]

theorem alistKeys_mapAt {κ β : Type} [DecidableEq κ] (l : List (κ × β)) (k : κ) (f : β → β) :
    alistKeys (alistMapAt l k f) = alistKeys l := by
  induction l with
  | nil => rfl
  | cons e t ih =>
    obtain ⟨k0, v0⟩ := e
    rcases eq_or_ne k0 k with h0 | h0
    · simp only [alistMapAt, if_pos h0, alistKeys, List.map_cons]
    · simp only [alistMapAt, if_neg h0, alistKeys, List.map_cons]
      simp only [alistKeys] at ih
      rw [ih]

theorem alistGet_isSome_iff_mem_keys {κ β : Type} [DecidableEq κ]
    (l : List (κ × β)) (k : κ) : (alistGet l k).isSome ↔ k ∈ alistKeys l := by
  induction l with
  | nil => simp [alistGet, alistKeys]
  | cons e t ih =>
    obtain ⟨k0, v0⟩ := e
    rcases eq_or_ne k0 k with h0 | h0
    · subst h0; simp [alistGet, alistKeys]
    · simp [alistGet, alistKeys, h0, Ne.symm h0, ih]

theorem alistGet_eq_none_of_not_mem {κ β : Type} [DecidableEq κ]
    (l : List (κ × β)) (k : κ) (h : k ∉ alistKeys l) : alistGet l k = Option.none := by
  rcases ho : alistGet l k with _ | v
  · rfl
  · exact absurd ((alistGet_isSome_iff_mem_keys l k).1 (by simp [ho])) h

theorem alistGet_append {κ β : Type} [DecidableEq κ] (l1 l2 : List (κ × β)) (k : κ) :
    alistGet (l1 ++ l2) k = ((alistGet l1 k).or (alistGet l2 k)) := by
  induction l1 with
  | nil => simp [alistGet]
  | cons e t ih =>
    obtain ⟨k0, v0⟩ := e
    by_cases h0 : k0 = k <;> simp [alistGet, h0, ih]

theorem alistKeys_nodup_set {κ β : Type} [DecidableEq κ] (l : List (κ × β)) (k : κ) (v : β)
    (h : (alistKeys l).Nodup) : (alistKeys (alistSet l k v)).Nodup := by
  rw [alistKeys_set]
  by_cases hs : (alistGet l k).isSome
  · simpa [hs]
  · have hk : k ∉ alistKeys l := fun hm =>
      hs ((alistGet_isSome_iff_mem_keys l k).2 hm)
    simp only [hs, if_false]
    simpa [List.nodup_append] using ⟨h, hk⟩

theorem alistGet_pyMerge {κ β : Type} [DecidableEq κ] (m l : List (κ × β)) (k : κ)
    (hl : (alistKeys l).Nodup) :
    alistGet (pyMerge m l) k = ((alistGet l k).or (alistGet m k)) := by
  induction l generalizing m with
  | nil => simp [pyMerge, alistGet]
  | cons e t ih =>
    obtain ⟨k0, v0⟩ := e
    have ht : (alistKeys t).Nodup := (List.nodup_cons.1 (by simpa [alistKeys] using hl)).2
    have hk0 : k0 ∉ alistKeys t := (List.nodup_cons.1 (by simpa [alistKeys] using hl)).1
    have : pyMerge m ((k0, v0) :: t) = pyMerge (alistSet m k0 v0) t := rfl
    rw [this, ih _ ht]
    by_cases h : k = k0
    · subst h
      rw [alistGet_eq_none_of_not_mem t k hk0]
      simp [alistGet, alistGet_set]
    · have : ¬ k0 = k := fun hc => h (hc ▸ rfl)
      simp [alistGet, this, alistGet_set, h]

theorem alistKeys_nodup_pyMerge {κ β : Type} [DecidableEq κ] (m l : List (κ × β))
    (hm : (alistKeys m).Nodup) : (alistKeys (pyMerge m l)).Nodup := by
  induction l generalizing m with
  | nil => simpa [pyMerge]
  | cons e t ih =>
    have : pyMerge m (e :: t) = pyMerge (alistSet m e.1 e.2) t := rfl
    rw [this]
    exact ih _ (alistKeys_nodup_set m e.1 e.2 hm)

/-! ## Python values

The value fragment exercised by the claims.  `PyList`/`PyDict` are the
containers as mutual inductives (so that the encoder below is structural
and kernel-reducible); `PyDict` is an insertion-ordered string-keyed
mapping, the common case for Python `dict` literals.  `awaitable`
stands for `AwaitableValue`, `coroutine` for a coroutine object as
produced by `to_coroutine`. -/

mutual
inductive PyVal where
  | null
  | bool (b : Bool)
  | int (n : Int)
  | str (s : String)
  | tuple (xs : PyList)
  | list (xs : PyList)
  | dict (es : PyDict)
  | awaitable (v : PyVal)
  | coroutine (v : PyVal)
inductive PyList where
  | nil
  | cons (x : PyVal) (xs : PyList)
inductive PyDict where
  | dnil
  | dcons (k : String) (v : PyVal) (es : PyDict)
end

/-- Convert a Lean list of values to the embedded container. -/
def PyList.ofList : List PyVal → PyList
  | [] => .nil
  | x :: xs => .cons x (PyList.ofList xs)

/-- Convert an embedded dict to an association list of its entries. -/
def PyDict.toList : PyDict → List (String × PyVal)
  | .dnil => []
  | .dcons k v es => (k, v) :: PyDict.toList es

/-- Convert an association list to an embedded dict. -/
def PyDict.ofList : List (String × PyVal) → PyDict
  | [] => .dnil
  | (k, v) :: es => .dcons k v (PyDict.ofList es)

/-- Number of entries of an embedded dict (`len(obj)`). -/
def PyDict.len : PyDict → Nat
  | .dnil => 0
  | .dcons _ _ es => PyDict.len es + 1

/-- Length of an embedded list (`len(obj)`). -/
def PyList.len : PyList → Nat
  | .nil => 0
  | .cons _ xs => PyList.len xs + 1

/-- Whether a value is a plain synchronous value: neither an
`AwaitableValue` wrapper nor a coroutine object. -/
def PyVal.isPlain : PyVal → Bool
  | .awaitable _ => false
  | .coroutine _ => false
  | _ => true

/-! ## Sorting association lists by key

Python's `sorted(d.items())` on a `dict` with (distinct) string keys.
Python compares strings lexicographically by code point, and compares
`(key, value)` tuples lexicographically — which coincides with
comparison of the keys whenever the keys are distinct, the invariant
`dict` guarantees.  The comparator below is that code-point order,
written so that it evaluates inside the kernel. -/

/-- Lexicographic strict order on code-point sequences. -/
def strLtCh : List Char → List Char → Bool
  | [], [] => false
  | [], _ :: _ => true
  | _ :: _, [] => false
  | a :: as, b :: bs =>
    if a.toNat < b.toNat then true
    else if b.toNat < a.toNat then false
    else strLtCh as bs

/-- Python `s <= t` on strings (code-point lexicographic). -/
def strLeb (s t : String) : Bool := !(strLtCh t.data s.data)

theorem strLtCh_irrefl : ∀ l, strLtCh l l = false
  | [] => rfl
  | a :: as => by simp [strLtCh, strLtCh_irrefl as]

theorem strLtCh_trans : ∀ a b c, strLtCh a b = true → strLtCh b c = true →
    strLtCh a c = true
  | [], [], _, h1, _ => by simp [strLtCh] at h1
  | [], _ :: _, [], _, h2 => by simp [strLtCh] at h2
  | [], _ :: _, _ :: _, _, _ => rfl
  | _ :: _, [], _, h1, _ => by simp [strLtCh] at h1
  | _ :: _, _ :: _, [], _, h2 => by simp [strLtCh] at h2
  | x :: xs, y :: ys, z :: zs, h1, h2 => by
    simp only [strLtCh] at h1 h2 ⊢
    by_cases hxy : x.toNat < y.toNat
    · by_cases hyz : y.toNat < z.toNat
      · simp [Nat.lt_trans hxy hyz]
      · by_cases hzy : z.toNat < y.toNat
        · simp [hyz, hzy] at h2
        · have hyzeq : y.toNat = z.toNat := by omega
          simp [hyzeq ▸ hxy]
    · by_cases hyx : y.toNat < x.toNat
      · simp [hxy, hyx] at h1
      · have hxyeq : x.toNat = y.toNat := by omega
        by_cases hyz : y.toNat < z.toNat
        · simp [hxyeq ▸ hyz]
        · by_cases hzy : z.toNat < y.toNat
          · simp [hyz, hzy] at h2
          · have h1' : strLtCh xs ys = true := by simpa [hxy, hyx] using h1
            have h2' : strLtCh ys zs = true := by simpa [hyz, hzy] using h2
            have hxz : ¬ x.toNat < z.toNat := by omega
            have hzx : ¬ z.toNat < x.toNat := by omega
            simpa [hxz, hzx] using strLtCh_trans xs ys zs h1' h2'

theorem strLtCh_asymm (a b : List Char) (h : strLtCh a b = true) :
    strLtCh b a = false := by
  by_contra hc
  have hba : strLtCh b a = true := by
    revert hc; cases strLtCh b a <;> simp
  exact absurd (strLtCh_trans a b a h hba) (by simp [strLtCh_irrefl])

theorem strLtCh_eq_of_not_lt : ∀ a b, strLtCh a b = false → strLtCh b a = false →
    a = b
  | [], [], _, _ => rfl
  | [], _ :: _, h1, _ => by simp [strLtCh] at h1
  | _ :: _, [], _, h2 => by simp [strLtCh] at h2
  | x :: xs, y :: ys, h1, h2 => by
    simp only [strLtCh] at h1 h2
    by_cases hxy : x.toNat < y.toNat
    · simp [hxy] at h1
    · by_cases hyx : y.toNat < x.toNat
      · simp [hyx] at h2
      · have h1' : strLtCh xs ys = false := by simpa [hxy, hyx] using h1
        have h2' : strLtCh ys xs = false := by simpa [hxy, hyx] using h2
        have hnat : x.toNat = y.toNat := by omega
        have hchar : x = y := Char.ext (UInt32.ext hnat)
        rw [hchar, strLtCh_eq_of_not_lt xs ys h1' h2']

theorem strLeb_total (s t : String) (h : strLeb s t = false) : strLeb t s = true := by
  have h' : strLtCh t.data s.data = true := by
    rcases hx : strLtCh t.data s.data with _ | _
    · simp [strLeb, hx] at h
    · rfl
  have := strLtCh_asymm t.data s.data h'
  simp only [strLeb, this, Bool.not_false]

theorem strLeb_antisymm (s t : String) (h1 : strLeb s t = true)
    (h2 : strLeb t s = true) : s = t := by
  simp only [strLeb, Bool.not_eq_true'] at h1 h2
  apply String.ext
  exact (strLtCh_eq_of_not_lt t.data s.data h1 h2).symm

theorem strLeb_trans (a b c : String) (h1 : strLeb a b = true)
    (h2 : strLeb b c = true) : strLeb a c = true := by
  simp only [strLeb, Bool.not_eq_true'] at h1 h2 ⊢
  by_contra hc
  have hca : strLtCh c.data a.data = true := by
    revert hc; cases strLtCh c.data a.data <;> simp
  rcases hab : strLtCh a.data b.data with _ | _
  · have heq : a.data = b.data := strLtCh_eq_of_not_lt a.data b.data hab h1
    rw [heq] at hca
    exact absurd hca (by simp [h2])
  · exact absurd (strLtCh_trans c.data a.data b.data hca hab) (by simp [h2])

/-- Key order on entries: compare the string keys. -/
def keyLE {β : Type} (p q : String × β) : Prop := strLeb p.1 q.1 = true

instance {β : Type} : DecidableRel (keyLE (β := β)) := fun p q =>
  inferInstanceAs (Decidable (strLeb p.1 q.1 = true))

/-- Stable insertion of an entry into a key-sorted list. -/
def ordInsertKV {β : Type} (e : String × β) : List (String × β) → List (String × β)
  | [] => [e]
  | e0 :: t => if strLeb e.1 e0.1 then e :: e0 :: t else e0 :: ordInsertKV e t

/-- Sort entries by key (stable), as `sorted(d.items())` does. -/
def sortKV {β : Type} : List (String × β) → List (String × β)
  | [] => []
  | e :: t => ordInsertKV e (sortKV t)

theorem ordInsertKV_perm {β : Type} (e : String × β) (l : List (String × β)) :
    List.Perm (ordInsertKV e l) (e :: l) := by
  induction l with
  | nil => exact List.Perm.refl _
  | cons e0 t ih =>
    by_cases h : strLeb e.1 e0.1
    · simp [ordInsertKV, h]
    · simp only [ordInsertKV, if_neg h]
      exact (ih.cons e0).trans (List.Perm.swap e e0 t)

theorem sortKV_perm {β : Type} (l : List (String × β)) : List.Perm (sortKV l) l := by
  induction l with
  | nil => exact List.Perm.refl _
  | cons e t ih => exact (ordInsertKV_perm e (sortKV t)).trans (ih.cons e)

theorem ordInsertKV_sorted {β : Type} (e : String × β) (l : List (String × β))
    (hs : l.Sorted keyLE) : (ordInsertKV e l).Sorted keyLE := by
  induction l with
  | nil => simp [ordInsertKV, List.Sorted]
  | cons e0 t ih =>
    by_cases h : strLeb e.1 e0.1
    · simp only [ordInsertKV, if_pos h]
      refine List.sorted_cons.2 ⟨?_, hs⟩
      intro b hb
      rcases List.mem_cons.1 hb with hb | hb
      · subst hb; exact h
      · exact strLeb_trans _ _ _ h (List.rel_of_sorted_cons hs b hb)
    · simp only [ordInsertKV, if_neg h]
      refine List.sorted_cons.2 ⟨?_, ih hs.of_cons⟩
      intro b hb
      have hb' : b ∈ e :: t := (ordInsertKV_perm e t).mem_iff.1 hb
      rcases List.mem_cons.1 hb' with hb' | hb'
      · subst hb'
        exact strLeb_total _ _ (by simpa using h)
      · exact List.rel_of_sorted_cons hs b hb'

theorem sortKV_sorted {β : Type} (l : List (String × β)) :
    (sortKV l).Sorted keyLE := by
  induction l with
  | nil => simp [sortKV, List.Sorted]
  | cons e t ih => exact ordInsertKV_sorted e (sortKV t) ih

theorem sorted_keyNodup_eq {β : Type} :
    ∀ (l1 l2 : List (String × β)), List.Perm l1 l2 → l1.Sorted keyLE → l2.Sorted keyLE →
      (alistKeys l1).Nodup → l1 = l2
  | [], l2, hp, _, _, _ => (List.Perm.nil_eq hp).symm ▸ rfl
  | x :: t1, l2, hp, hs1, hs2, hnd => by
    match l2 with
    | [] => exact absurd hp.symm (by simp)
    | y :: t2 =>
      have hndc : (x.1 :: alistKeys t1).Nodup := by
        simpa [alistKeys] using hnd
      have hxy : x = y := by
        have hx2 : x ∈ y :: t2 := hp.mem_iff.1 (List.mem_cons_self x t1)
        rcases List.mem_cons.1 hx2 with h | hxt2
        · exact h
        · have hy1 : y ∈ x :: t1 := hp.symm.mem_iff.1 (List.mem_cons_self y t2)
          rcases List.mem_cons.1 hy1 with h | hyt1
          · exact h.symm
          · have h1 : keyLE x y := List.rel_of_sorted_cons hs1 y hyt1
            have h2 : keyLE y x := List.rel_of_sorted_cons hs2 x hxt2
            have hkey : x.1 = y.1 := strLeb_antisymm _ _ h1 h2
            have : x.1 ∉ alistKeys t1 := (List.nodup_cons.1 hndc).1
            exact absurd (hkey ▸ (List.mem_map_of_mem Prod.fst hyt1)) this
      subst hxy
      have ht : t1 = t2 :=
        sorted_keyNodup_eq t1 t2 (hp.cons_inv) hs1.of_cons hs2.of_cons
          (List.nodup_cons.1 hndc).2
      rw [ht]

theorem alistGet_some_split {β : Type} :
    ∀ (l : List (String × β)) (k : String) (v : β), alistGet l k = some v →
      ∃ a b, l = a ++ (k, v) :: b ∧ k ∉ alistKeys a
  | [], k, v, h => by simp [alistGet] at h
  | (k0, v0) :: t, k, v, h => by
    rcases eq_or_ne k0 k with h0 | h0
    · subst h0
      have : v0 = v := by simpa [alistGet] using h
      exact ⟨[], t, by simp [this], by simp [alistKeys]⟩
    · have ht : alistGet t k = some v := by simpa [alistGet, h0] using h
      obtain ⟨a, b, hab, hka⟩ := alistGet_some_split t k v ht
      exact ⟨(k0, v0) :: a, b, by simp [hab], by
        simp only [alistKeys, List.map_cons, List.mem_cons]
        rintro (h | h)
        · exact h0 h.symm
        · exact hka (by simpa [alistKeys] using h)⟩

theorem perm_of_alistGet_eq {β : Type} :
    ∀ (l1 l2 : List (String × β)), (alistKeys l1).Nodup → (alistKeys l2).Nodup →
      (∀ k, alistGet l1 k = alistGet l2 k) → List.Perm l1 l2
  | [], l2, _, _, hget => by
    match l2 with
    | [] => exact List.Perm.refl _
    | (k, v) :: t => exact absurd (hget k).symm (by simp [alistGet])
  | (k, v) :: t1, l2, hnd1, hnd2, hget => by
    have h2 : alistGet l2 k = some v := by
      have := hget k; simpa [alistGet] using this.symm
    obtain ⟨a, b, hab, hka⟩ := alistGet_some_split l2 k v h2
    subst hab
    have hmid : List.Perm (a ++ (k, v) :: b) ((k, v) :: (a ++ b)) := List.perm_middle
    have hkeysmid : List.Perm (alistKeys (a ++ (k, v) :: b)) (k :: alistKeys (a ++ b)) := by
      simp only [alistKeys, List.map_append, List.map_cons]
      exact
        (List.perm_middle :
          List.Perm (List.map Prod.fst a ++ k :: List.map Prod.fst b)
            (k :: (List.map Prod.fst a ++ List.map Prod.fst b)))
    have hnd2' : (k :: alistKeys (a ++ b)).Nodup := hkeysmid.nodup_iff.1 hnd2
    have hkab : k ∉ alistKeys (a ++ b) := (List.nodup_cons.1 hnd2').1
    have hnd1c : (k :: alistKeys t1).Nodup := by
      simpa [alistKeys] using hnd1
    have hkt1 : k ∉ alistKeys t1 := (List.nodup_cons.1 hnd1c).1
    have htail : List.Perm t1 (a ++ b) := by
      apply perm_of_alistGet_eq t1 (a ++ b)
        ((List.nodup_cons.1 hnd1c).2)
        ((List.nodup_cons.1 hnd2').2)
      intro k'
      rcases eq_or_ne k' k with hk | hk
      · subst hk
        rw [alistGet_eq_none_of_not_mem _ _ hkt1, alistGet_eq_none_of_not_mem _ _ hkab]
      · have step : alistGet t1 k' = alistGet (a ++ (k, v) :: b) k' := by
          have := hget k'
          simpa [alistGet, Ne.symm hk] using this
        rw [step, alistGet_append, alistGet_append]
        have : alistGet ((k, v) :: b) k' = alistGet b k' := by
          simp [alistGet, Ne.symm hk]
        rw [this]
    exact (htail.cons (k, v)).trans hmid.symm

theorem sortKV_eq_of_alistGet_eq {β : Type} (l1 l2 : List (String × β))
    (hnd1 : (alistKeys l1).Nodup) (hnd2 : (alistKeys l2).Nodup)
    (hget : ∀ k, alistGet l1 k = alistGet l2 k) : sortKV l1 = sortKV l2 := by
  have hperm : List.Perm (sortKV l1) (sortKV l2) :=
    (sortKV_perm l1).trans ((perm_of_alistGet_eq l1 l2 hnd1 hnd2 hget).trans
      (sortKV_perm l2).symm)
  have hnds : (alistKeys (sortKV l1)).Nodup := by
    have : List.Perm (alistKeys (sortKV l1)) (alistKeys l1) := (sortKV_perm l1).map Prod.fst
    exact this.nodup_iff.2 hnd1
  exact sorted_keyNodup_eq _ _ hperm (sortKV_sorted l1) (sortKV_sorted l2) hnds

theorem ordInsertKV_map_keyPreserving {β γ : Type} (f : String × β → γ) (e : String × β)
    (l : List (String × β)) :
    ordInsertKV (e.1, f e) (l.map (fun p => (p.1, f p))) =
      (ordInsertKV e l).map (fun p => (p.1, f p)) := by
  induction l with
  | nil => rfl
  | cons p t ih =>
    by_cases h : strLeb e.1 p.1 <;> simp [ordInsertKV, h, ih]

theorem sortKV_map_keyPreserving {β γ : Type} (f : String × β → γ) (l : List (String × β)) :
    sortKV (l.map (fun p => (p.1, f p))) = (sortKV l).map (fun p => (p.1, f p)) := by
  induction l with
  | nil => rfl
  | cons e t ih =>
    show ordInsertKV (e.1, f e) (sortKV (t.map _)) = _
    rw [ih]
    exact ordInsertKV_map_keyPreserving f e (sortKV t)

/-! ## The structural hasher (`object_hash.py`)

`ObjectHash` streams bytes into BLAKE2b.  The model records the exact
byte string fed to the hash; `HashDigest` pairs it with the configured
`digest_size`, and `hexdigest` is the ideal-hash reading of
`ObjectHash.hexdigest()` (an injective stand-in for the hex string).

`objBytes v` is the concatenation of everything `_update_one(v)` writes
for a value `v` of the modelled fragment: each case below is the
`header(...)`/`write_bytes(...)` sequence of the corresponding `match`
arm of `object_hash.py`.  For mappings the code sorts `obj.items()`
and then feeds `flatten(items)`; the model encodes the entries first
and sorts the encoded pairs by the (unchanged) keys, which yields the
same byte stream (`objBytes_dict_sorted` below makes this explicit).
For the `AwaitableValue` wrapper (never hashed by the claims) the
generic-instance branch is abstracted to its `__dict__` state. -/

/-- Bytes contributed by a Python `str`: `header("bytes", type, len)` then the bytes. -/
def strBytes (s : String) : String :=
  "bytes:builtins:str:" ++ toString s.utf8ByteSize ++ s

/-- Concatenate the encoded-entry component of already-encoded dict pairs. -/
def joinEnc : List (String × String) → String
  | [] => ""
  | (_, enc) :: t => enc ++ joinEnc t

mutual
def objBytes : PyVal → String
  | .null => "null"
  | .bool b => "number:builtins:bool:" ++ (if b then "True" else "False")
  | .int n => "number:builtins:int:" ++ toString n
  | .str s => strBytes s
  | .tuple xs => "list:builtins:tuple:" ++ toString xs.len ++ objBytesList xs
  | .list xs => "list:builtins:list:" ++ toString xs.len ++ objBytesList xs
  | .dict es => "dict:builtins:dict:" ++ toString es.len ++ joinEnc (sortKV (objBytesKV es))
  | .awaitable v =>
      "instance:checkpointer.types:AwaitableValue" ++ "dict" ++
        "dict:builtins:dict:1" ++ strBytes "value" ++ objBytes v
  | .coroutine v => "generator:coroutine" ++ objBytes v
def objBytesList : PyList → String
  | .nil => ""
  | .cons x xs => objBytes x ++ objBytesList xs
def objBytesKV : PyDict → List (String × String)
  | .dnil => []
  | .dcons k v es => (k, strBytes k ++ objBytes v) :: objBytesKV es
end

/-- An ideal digest: the digest size together with the full byte stream. -/
structure HashDigest where
  size : Nat
  stream : String
deriving DecidableEq, Repr

/-- Ideal-hash stand-in for `ObjectHash.hexdigest()`: an injective encoding
of the digest, used wherever the code manipulates the digest as a string. -/
def hexdigest (h : HashDigest) : String :=
  toString h.size ++ "|" ++ h.stream

/-- `str(ObjectHash(v, digest_size=n))`. -/
def objHashStr (n : Nat) (v : PyVal) : String :=
  hexdigest ⟨n, objBytes v⟩

/-- Concatenation of a list of byte strings (successive `write_bytes` calls). -/
def strConcat : List String → String
  | [] => ""
  | s :: t => s ++ strConcat t

/-! ### Header and sorted-entry characterisations of the encoder -/

/-- The first (mandatory) type-header chunk `_update_one` writes for a value. -/
def headerOf : PyVal → String
  | .null => "null"
  | .bool _ => "number:builtins:bool:"
  | .int _ => "number:builtins:int:"
  | .str _ => "bytes:builtins:str:"
  | .tuple _ => "list:builtins:tuple:"
  | .list _ => "list:builtins:list:"
  | .dict _ => "dict:builtins:dict:"
  | .awaitable _ => "instance:checkpointer.types:AwaitableValue"
  | .coroutine _ => "generator:coroutine"

theorem objBytes_startsWith_header (v : PyVal) :
    ∃ rest, objBytes v = headerOf v ++ rest := by
  cases v <;> exact ⟨_, rfl⟩

theorem objBytesKV_toList :
    ∀ es : PyDict, objBytesKV es =
      (PyDict.toList es).map (fun p => (p.1, strBytes p.1 ++ objBytes p.2))
  | .dnil => rfl
  | .dcons k v t => by
    simp only [objBytesKV, PyDict.toList, List.map_cons]
    rw [objBytesKV_toList t]

theorem joinEnc_map_pair (f : String × PyVal → String)
    (l : List (String × PyVal)) :
    joinEnc (l.map (fun p => (p.1, f p))) = strConcat (l.map f) := by
  induction l with
  | nil => rfl
  | cons p t ih => simp [joinEnc, strConcat, ih]

/-- Mapping entries are fed to the hash in sorted key order: the byte stream
of a mapping is its `dict` header followed by the `(key, value)` entries of
the mapping ordered by key, each entry contributing its encoded key then its
encoded value. -/
theorem objBytes_dict_sorted (es : PyDict) :
    objBytes (.dict es) =
      "dict:builtins:dict:" ++ toString es.len ++
        strConcat ((sortKV es.toList).map (fun p => strBytes p.1 ++ objBytes p.2)) := by
  show "dict:builtins:dict:" ++ toString es.len ++ joinEnc (sortKV (objBytesKV es)) = _
  rw [objBytesKV_toList es,
    sortKV_map_keyPreserving (fun p => strBytes p.1 ++ objBytes p.2) es.toList,
    joinEnc_map_pair]

/-! ## The call hasher (`CachedFunction._get_call_hash`)

`IdentMeta` carries the parameter metadata `FunctionIdent.__init__`
derives from the wrapped callable's signature: ordered positional
parameter names (`pos_names`), the set of named parameters
(`arg_names`), the default map (`default_args`), the per-parameter
hash-by overrides keyed by name / `b"*"` / `b"**"` (`hash_by_map`), and
the function's `capturables` in their sorted-by-key order. -/

/-- A key of `hash_by_map`: a named parameter, `b"*"`, or `b"**"`. -/
inductive HKey where
  | name (n : String)
  | star
  | dstar
deriving DecidableEq

/-- A `Capturable` (fn_ident.py): a module-level name participating in cache
identity.  `get_at(module, *attr_path)` is abstracted to a lookup of the
capturable's key in a capture environment (the relevant module state);
`frozenHash` is the `hash` field of a capture-once capturable (a hex digest,
hence non-empty, so the code's truthiness test is `isSome` here). -/
structure CapturableM where
  key : String
  frozenHash : Option String
  hashBy : Option (PyVal → PyVal)

/-- The state of the module globals a capturable reads. -/
abbrev CaptureEnv := List (String × PyVal)

/-- `Capturable.capture()`: the frozen hash when present, otherwise the
current value of the referenced global, passed through `hash_by` when set. -/
def CapturableM.captureM (c : CapturableM) (g : CaptureEnv) : String × PyVal :=
  match c.frozenHash with
  | some h => (c.key, .str h)
  | Option.none =>
    let obj := (alistGet g c.key).getD .null
    (c.key, match c.hashBy with | some f => f obj | Option.none => obj)

structure IdentMeta where
  posNames : List String
  argNames : List String
  defaultArgs : List (String × PyVal)
  hashByMap : List (HKey × (PyVal → PyVal))
  capturables : List CapturableM

/-- `args[len(pos_names):]`. -/
def posTail (ident : IdentMeta) (fullArgs : List PyVal) : List PyVal :=
  fullArgs.drop ident.posNames.length

/-- `dict(zip(pos_names, args))`. -/
def namedPosArgs (ident : IdentMeta) (fullArgs : List PyVal) : List (String × PyVal) :=
  ident.posNames.zip fullArgs

/-- The merged named-argument map, later entries overriding. -/
def mergedNamed (ident : IdentMeta) (fullArgs : List PyVal)
    (kw : List (String × PyVal)) : List (String × PyVal) :=
  pyMerge (pyMerge ident.defaultArgs (namedPosArgs ident fullArgs)) kw

/-- One iteration of the `for key, hash_by in ident.hash_by_map.items()` loop,
acting on the pair (named_args, pos_args). -/
def hashByStep (argNames : List String) (kwKeys : List String)
    (acc : List (String × PyVal) × List PyVal) (e : HKey × (PyVal → PyVal)) :
    List (String × PyVal) × List PyVal :=
  match e.1 with
  | .name n => (alistMapAt acc.1 n e.2, acc.2)
  | .star => (acc.1, acc.2.map e.2)
  | .dstar =>
      ((kwKeys.filter (fun k => decide (k ∉ argNames))).foldl
        (fun m k => alistMapAt m k e.2) acc.1, acc.2)

/-- The (named_args, pos_args) pair after argument normalisation and the
hash-by loop of `_get_call_hash`. -/
def effPair (ident : IdentMeta) (bound args : List PyVal)
    (kw : List (String × PyVal)) : List (String × PyVal) × List PyVal :=
  let fullArgs := bound ++ args
  ident.hashByMap.foldl (hashByStep ident.argNames (alistKeys kw))
    (mergedNamed ident fullArgs kw, posTail ident fullArgs)

def effNamed (ident : IdentMeta) (bound args : List PyVal)
    (kw : List (String × PyVal)) : List (String × PyVal) :=
  (effPair ident bound args kw).1

def effPos (ident : IdentMeta) (bound args : List PyVal)
    (kw : List (String × PyVal)) : List PyVal :=
  (effPair ident bound args kw).2

/-- Modelled from the spec: `utils.flatten` is imported by `checkpoint.py`
but absent from the snapshot's `utils.py` (an older module revision).  Per
the spec's call-hash step 5 — "sorted (key, value) pairs flattened" — it
interleaves the components of a sequence of pairs. -/
def flattenPairs : List (String × PyVal) → List PyVal
  | [] => []
  | (k, v) :: t => .str k :: v :: flattenPairs t

/-- One `update(header=h, iter=items)` call of `ObjectHash`: the header
bytes are written just before the first item, hence not at all when the
iterator is empty. -/
def regionBytes (h : String) (items : List PyVal) : String :=
  match items with
  | [] => ""
  | _ => h ++ strConcat (items.map objBytes)

/-- `CachedFunction._get_call_hash` / `get_call_hash`: the 16-byte digest of
the `"NAMED"`, `"POS"` and `"CAPTURED"` regions. -/
def callHash (ident : IdentMeta) (g : CaptureEnv) (bound args : List PyVal)
    (kw : List (String × PyVal)) : String :=
  let named := effNamed ident bound args kw
  let pos := effPos ident bound args kw
  let captured := ident.capturables.map (fun c => c.captureM g)
  hexdigest ⟨16,
    regionBytes "NAMED" (flattenPairs (sortKV named)) ++
      regionBytes "POS" pos ++
      regionBytes "CAPTURED" (flattenPairs captured)⟩

/-- Congruence for the call hash: it is a function of the final named-argument
map (as a key-value mapping), the final positional tail, and the captured
pairs. -/
theorem callHash_congr (ident : IdentMeta) (g1 g2 : CaptureEnv)
    (b1 a1 b2 a2 : List PyVal) (kw1 kw2 : List (String × PyVal))
    (hnd1 : (alistKeys (effNamed ident b1 a1 kw1)).Nodup)
    (hnd2 : (alistKeys (effNamed ident b2 a2 kw2)).Nodup)
    (hget : ∀ k, alistGet (effNamed ident b1 a1 kw1) k
      = alistGet (effNamed ident b2 a2 kw2) k)
    (hpos : effPos ident b1 a1 kw1 = effPos ident b2 a2 kw2)
    (hcap : ident.capturables.map (fun c => c.captureM g1)
      = ident.capturables.map (fun c => c.captureM g2)) :
    callHash ident g1 b1 a1 kw1 = callHash ident g2 b2 a2 kw2 := by
  have hsort : sortKV (effNamed ident b1 a1 kw1) = sortKV (effNamed ident b2 a2 kw2) :=
    sortKV_eq_of_alistGet_eq _ _ hnd1 hnd2 hget
  simp only [callHash, hsort, hpos, hcap]

/-! ## Errors, configuration, and the storage contract -/

inductive PyErr where
  | eofError
  | fileNotFoundError
  | keyError
  | checkpointError
  | raised (msg : String)
deriving DecidableEq, Repr

/-- The `expiry` option: a `timedelta` or a predicate over the checkpoint
date.  A raising predicate is modelled by an `.error` result. -/
inductive ExpiryCfg where
  | duration (d : Nat)
  | predicate (p : Nat → Except PyErr Bool)

/-- The `Checkpointer` options a call consults: `when`, `verbosity`, `expiry`. -/
structure EngineCfg where
  whenEnabled : Bool
  verbosity : Nat
  expiry : Option ExpiryCfg

/-- The storage-backend operations of the `Storage` contract over an explicit
backend state `σ`, plus the backend clock (`datetime.now()` / file mtimes are
modelled by a `Nat` timestamp read from the state). -/
structure StorageOps (σ : Type) where
  existsEntry : σ → String → Bool
  loadEntry : σ → String → Except PyErr PyVal
  storeEntry : σ → String → PyVal → σ
  checkpointDate : σ → String → Except PyErr Nat
  now : σ → Nat

/-- `Storage.expired_dt`: a `timedelta` expiry compares the date against
`now - expiry`; a predicate expiry applies the user predicate (which may
raise). -/
def expiredDt (e : ExpiryCfg) (now dt : Nat) : Except PyErr Bool :=
  match e with
  | .duration d => .ok (decide (dt < now - d))
  | .predicate p => p dt

/-- `Storage.expired`, the base-class implementation every backend inherits:
`False` when no expiry is configured, otherwise `expired_dt` on the entry's
checkpoint date.  Nothing catches an exception of the predicate. -/
def Storage.expired {σ : Type} (cfg : EngineCfg) (ops : StorageOps σ)
    (s : σ) (ch : String) : Except PyErr Bool :=
  match cfg.expiry with
  | Option.none => .ok false
  | some e => (ops.checkpointDate s ch).bind (fun dt => expiredDt e (ops.now s) dt)

/-! ## The per-call state machine (`CachedFunction._call`) -/

inductive LogTag where
  | memorizing
  | remembered
  | corrupted
deriving DecidableEq, Repr

/-- Observable per-call events: backend stores and load attempts, executions
of the wrapped callable, and emitted log lines. -/
inductive CallEvent where
  | storeEv (ch : String)
  | loadEv (ch : String)
  | execEv
  | logEv (tag : LogTag)
deriving DecidableEq, Repr

def countStores (evs : List CallEvent) : Nat :=
  (evs.filter fun e => match e with | .storeEv _ => true | _ => false).length

def countLoads (evs : List CallEvent) : Nat :=
  (evs.filter fun e => match e with | .loadEv _ => true | _ => false).length

def countExecs (evs : List CallEvent) : Nat :=
  (evs.filter fun e => match e with | .execEv => true | _ => false).length

def countLog (t : LogTag) (evs : List CallEvent) : Nat :=
  (evs.filter fun e => match e with | .logEv t0 => t0 = t | _ => false).length

structure CallResult (σ : Type) where
  result : Except PyErr PyVal
  state : σ
  events : List CallEvent

/-- The `EXECUTE` branch (`refresh` path) of `_call`: log `MEMORIZING` at
verbosity ≥ 1, run the callable, store the result and return it
(`storage.store` returns `data`).  The modelled fragment is synchronous:
the `iscoroutine(data)` branch is never taken because the embedded
callables return plain values. -/
def execBranch {σ : Type} (cfg : EngineCfg) (ops : StorageOps σ) (fnRes : PyVal)
    (ch : String) (s : σ) : CallResult σ :=
  { result := .ok fnRes
    state := ops.storeEntry s ch fnRes
    events := (if 1 ≤ cfg.verbosity then [CallEvent.logEv .memorizing] else []) ++
      [CallEvent.execEv, CallEvent.storeEv ch] }

/-- `CachedFunction._call` for an already-computed call hash and callable
result.  `refresh` evaluates `rerun or not exists or expired` with Python's
short-circuiting (so a raising expiry is only reached when the entry exists);
on a load failing with `EOFError`/`FileNotFoundError` the code logs
`CORRUPTED` and tail-calls `self._call(args, kw, True)`, which (the guard
`when` still holding) immediately takes the `EXECUTE` branch — the retry is
therefore inlined as `execBranch`; `callModel_rerun_eq_exec` below records
that this inlining is exact.  Other load failures propagate. -/
def callModel {σ : Type} (cfg : EngineCfg) (ops : StorageOps σ) (fnRes : PyVal)
    (ch : String) (rerun : Bool) (s : σ) : CallResult σ :=
  if cfg.whenEnabled = false then { result := .ok fnRes, state := s, events := [] }
  else
    let refreshE : Except PyErr Bool :=
      if rerun then .ok true
      else if ops.existsEntry s ch = false then .ok true
      else Storage.expired cfg ops s ch
    match refreshE with
    | .error e => { result := .error e, state := s, events := [] }
    | .ok true => execBranch cfg ops fnRes ch s
    | .ok false =>
      match ops.loadEntry s ch with
      | .ok data =>
        let evs := CallEvent.loadEv ch ::
          (if 2 ≤ cfg.verbosity then [CallEvent.logEv .remembered] else [])
        match data with
        | .awaitable w => { result := .ok (.coroutine w), state := s, events := evs }
        | _ => { result := .ok data, state := s, events := evs }
      | .error e =>
        if e = .eofError ∨ e = .fileNotFoundError then
          let r := execBranch cfg ops fnRes ch s
          { result := r.result, state := r.state,
            events := CallEvent.loadEv ch ::
              ((if 1 ≤ cfg.verbosity then [CallEvent.logEv .corrupted] else []) ++ r.events) }
        else { result := .error e, state := s, events := [CallEvent.loadEv ch] }

/-- The inlining of the corruption retry is exact: with caching enabled,
`_call(args, kw, True)` is precisely the `EXECUTE` branch. -/
theorem callModel_rerun_eq_exec {σ : Type} (cfg : EngineCfg) (ops : StorageOps σ)
    (fnRes : PyVal) (ch : String) (s : σ) (hwhen : cfg.whenEnabled = true) :
    callModel cfg ops fnRes ch true s = execBranch cfg ops fnRes ch s := by
  simp [callModel, hwhen]

/-- `CachedFunction.__call__` / `rerun`: the wrapped callable is a pure
function of the receiver-prepended positional arguments and the keywords;
`_call` computes the call hash and drives the state machine.  (With `when`
false the machine returns `fn(*full_args, **kw)` directly.) -/
def cachedCall {σ : Type} (cfg : EngineCfg) (ops : StorageOps σ) (ident : IdentMeta)
    (g : CaptureEnv) (fn : List PyVal → List (String × PyVal) → PyVal)
    (bound args : List PyVal) (kw : List (String × PyVal)) (rerun : Bool) (s : σ) :
    CallResult σ :=
  callModel cfg ops (fn (bound ++ args) kw) (callHash ident g bound args kw) rerun s

/-- `CachedFunction.exists`. -/
def cachedExists {σ : Type} (ops : StorageOps σ) (ident : IdentMeta) (g : CaptureEnv)
    (bound args : List PyVal) (kw : List (String × PyVal)) (s : σ) : Bool :=
  ops.existsEntry s (callHash ident g bound args kw)

/-- `CachedFunction.set`. -/
def cachedSet {σ : Type} (ops : StorageOps σ) (ident : IdentMeta) (g : CaptureEnv)
    (bound args : List PyVal) (kw : List (String × PyVal)) (v : PyVal) (s : σ) : σ :=
  ops.storeEntry s (callHash ident g bound args kw) v

/-- `CachedFunction.get`: load-only; an `AwaitableValue` is unwrapped to its
inner value; any load failure is re-raised as a `CheckpointError`. -/
def cachedGet {σ : Type} (ops : StorageOps σ) (ident : IdentMeta) (g : CaptureEnv)
    (bound args : List PyVal) (kw : List (String × PyVal)) (s : σ) :
    Except PyErr PyVal :=
  match ops.loadEntry s (callHash ident g bound args kw) with
  | .ok (.awaitable w) => .ok w
  | .ok v => .ok v
  | .error _ => .error .checkpointError

/-! ## The in-memory backend (`storages/memory_storage.py`) -/

/-- A per-function version directory `fn_dir() = directory / fn_dir / fn_hash`:
`parent` is `directory / fn_dir` (shared by all versions of one function),
`leaf` the `fn_hash` component. -/
structure MemPath where
  parent : String
  leaf : String
deriving DecidableEq, Repr

/-- The inner map of `item_map`: call hash to `(timestamp, value)`. -/
abbrev CallDict := List (String × (Nat × PyVal))

/-- The process-global `item_map`, plus the clock. -/
structure MemState where
  itemMap : List (MemPath × CallDict)
  now : Nat

/-- `get_dict()` read-only: `item_map.setdefault(fn_dir(), {})`.  (The
side effect of inserting an empty bucket is observationally equal to the
bucket's absence for every operation below and is elided.) -/
def memGetDict (s : MemState) (p : MemPath) : CallDict :=
  (alistGet s.itemMap p).getD []

/-- `MemoryStorage` methods for the function at path `p`. -/
def memOps (p : MemPath) : StorageOps MemState where
  existsEntry s ch := (alistGet (memGetDict s p) ch).isSome
  loadEntry s ch :=
    match alistGet (memGetDict s p) ch with
    | some (_, v) => .ok v
    | Option.none => .error .keyError
  storeEntry s ch v :=
    { s with itemMap := alistSet s.itemMap p (alistSet (memGetDict s p) ch (s.now, v)) }
  checkpointDate s ch :=
    match alistGet (memGetDict s p) ch with
    | some (d, _) => .ok d
    | Option.none => .error .keyError
  now s := s.now

/-- The expired-entry sweep of `MemoryStorage.cleanup` over one inner dict:
delete the entries whose date satisfies `expired_dt`. -/
def sweepEntries (e : ExpiryCfg) (now : Nat) : CallDict → Except PyErr CallDict
  | [] => .ok []
  | (ch, dt, v) :: rest =>
    (expiredDt e now dt).bind fun b =>
      (sweepEntries e now rest).map fun r => if b then r else (ch, dt, v) :: r

/-- The `for key, calldict in list(item_map.items())` loop of
`MemoryStorage.cleanup`: for keys sharing the current parent, delete other
`fn_hash` versions when `invalidated`, else sweep expired entries when
`expired` and an expiry is configured. -/
def memCleanupItems (cfg : EngineCfg) (invalidated expiredFlag : Bool)
    (cur : MemPath) (now : Nat) :
    List (MemPath × CallDict) → Except PyErr (List (MemPath × CallDict))
  | [] => .ok []
  | (key, d) :: rest =>
    let tail := memCleanupItems cfg invalidated expiredFlag cur now rest
    if key.parent = cur.parent then
      if invalidated = true ∧ key ≠ cur then tail
      else if expiredFlag = true ∧ cfg.expiry.isSome then
        match cfg.expiry with
        | some e => (sweepEntries e now d).bind fun d' =>
            tail.map fun r => (key, d') :: r
        | Option.none => tail.map fun r => (key, d) :: r
      else tail.map fun r => (key, d) :: r
    else tail.map fun r => (key, d) :: r

/-- `MemoryStorage.cleanup(invalidated, expired)`. -/
def MemoryStorage.cleanup (cfg : EngineCfg) (invalidated expiredFlag : Bool)
    (cur : MemPath) (s : MemState) : Except PyErr MemState :=
  (memCleanupItems cfg invalidated expiredFlag cur s.now s.itemMap).map
    fun m => { s with itemMap := m }

/-- `MemoryStorage.__init__`: `super().__init__(cached_fn)` followed by an
eager `self.cleanup()` with both flags at their `True` defaults. -/
def MemoryStorage.init (cfg : EngineCfg) (cur : MemPath) (s : MemState) :
    Except PyErr MemState :=
  MemoryStorage.cleanup cfg true true cur s

/-! ## The on-disk backend (`storages/pickle_storage.py`)

A stored file either holds a value (pickle round-trips it) or is corrupt
— e.g. truncated to zero bytes — in which case `pickle.load` raises
`EOFError`; a missing file raises `FileNotFoundError`. -/

/-- A blob path `fn_dir() / call_hash[:2] / call_hash[2:].pkl`. -/
structure PkPath where
  dir : String
  pre : String
  rest : String
deriving DecidableEq, Repr

inductive Blob where
  | valid (v : PyVal)
  | corrupt

/-- The filesystem fragment the backend touches: blob files with mtimes. -/
structure PickleState where
  files : List (PkPath × (Nat × Blob))
  now : Nat

/-- `PickleStorage.get_path`. -/
def PickleStorage.getPath (dir ch : String) : PkPath :=
  ⟨dir, ch.take 2, ch.drop 2 ++ ".pkl"⟩

/-- `PickleStorage` methods for the function directory `dir`. -/
def pickleOps (dir : String) : StorageOps PickleState where
  existsEntry s ch := (alistGet s.files (PickleStorage.getPath dir ch)).isSome
  loadEntry s ch :=
    match alistGet s.files (PickleStorage.getPath dir ch) with
    | Option.none => .error .fileNotFoundError
    | some (_, .corrupt) => .error .eofError
    | some (_, .valid v) => .ok v
  storeEntry s ch v :=
    { s with files := alistSet s.files (PickleStorage.getPath dir ch) (s.now, .valid v) }
  checkpointDate s ch :=
    match alistGet s.files (PickleStorage.getPath dir ch) with
    | some (d, _) => .ok d
    | Option.none => .error .fileNotFoundError
  now s := s.now

/-! ## Function identity (`FunctionIdent`, `fn_ident.py`) -/

/-- A node of the dependency graph `raw_ident.depends`: another cached
function (by identity index) or a plain user callable (an opaque id). -/
inductive DNode where
  | cached (i : Nat)
  | plain (p : Nat)
deriving DecidableEq, Repr

/-- One `FunctionIdent`'s realised data: the `fn_hash_from` override when the
identity is static, and the `raw_ident` fields computed by `get_fn_ident`
(the body-only digest and the ordered dependency list, this function first). -/
structure IdentInfo where
  fnHashFrom : Option PyVal
  rawFnHash : String
  rawDepends : List DNode

instance : Inhabited IdentInfo := ⟨⟨Option.none, "", []⟩⟩

/-- The cached functions of the program, `FunctionIdent`s by index. -/
structure FnGraph where
  idents : List IdentInfo

def FnGraph.info (g : FnGraph) (i : Nat) : IdentInfo :=
  g.idents.getD i default

/-- `FunctionIdent.is_static()`: whether `fn_hash_from` is configured. -/
def isStatic (g : FnGraph) (i : Nat) : Bool :=
  (g.info i).fnHashFrom.isSome

/-- `FunctionIdent.deep_depends(past_static, visited)` as a generator: the
yielded nodes together with the final visited set.  The fuel only bounds the
nesting depth of the generator; the visited set makes
`g.idents.length + 1` always sufficient. -/
def deepDependsAux (g : FnGraph) :
    Nat → Nat → Bool → List DNode → (List DNode × List DNode)
  | 0, _, _, vis => ([], vis)
  | fuel + 1, i, pastStatic, vis =>
    if DNode.cached i ∈ vis then ([], vis)
    else
      let vis1 := vis ++ [DNode.cached i]
      let stop := pastStatic = false ∧ isStatic g i = true
      let deps := if stop then [] else (g.info i).rawDepends
      deps.foldl
        (fun acc d =>
          match d with
          | .cached j =>
            let r := deepDependsAux g fuel j pastStatic acc.2
            (acc.1 ++ r.1, r.2)
          | .plain q =>
            if DNode.plain q ∈ acc.2 then acc
            else (acc.1 ++ [DNode.plain q], acc.2 ++ [DNode.plain q]))
        ([DNode.cached i], vis1)

def deepDepends (g : FnGraph) (i : Nat) (pastStatic : Bool) : List DNode :=
  (deepDependsAux g (g.idents.length + 1) i pastStatic []).1

/-- `FunctionIdent.deep_idents(past_static)`: the cached-function subset of
`deep_depends`, as identity indices. -/
def deepIdents (g : FnGraph) (i : Nat) (pastStatic : Bool) : List Nat :=
  (deepDepends g i pastStatic).filterMap
    (fun d => match d with | .cached j => some j | .plain _ => Option.none)

/-- The `fn_hash` of a static identity:
`str(ObjectHash(fn_hash_from, digest_size=16))`. -/
def staticFnHash (g : FnGraph) (i : Nat) : String :=
  hexdigest ⟨16, objBytes ((g.info i).fnHashFrom.getD .null)⟩

/-- `FunctionIdent.fn_hash`: the override digest when static; otherwise the
16-byte digest of `write_text(iter=deep_hashes)`, each identity of
`deep_idents(past_static=False)` contributing `d.fn_hash` when it is static
and `d.raw_ident.fn_hash` otherwise.  A static dependency's `fn_hash`
evaluates immediately to its override digest, which is how the recursion
terminates; it is therefore written `staticFnHash` here, and `fnHash_static`
recovers the recursive reading. -/
def fnHash (g : FnGraph) (i : Nat) : String :=
  if isStatic g i then staticFnHash g i
  else
    hexdigest ⟨16, strConcat ((deepIdents g i false).map
      (fun j => if isStatic g j then staticFnHash g j else (g.info j).rawFnHash))⟩

theorem fnHash_static (g : FnGraph) (i : Nat) (h : isStatic g i = true) :
    fnHash g i = staticFnHash g i := by
  simp [fnHash, h]

/-! ## Handles sharing a `FunctionIdent` (descriptor protocol and `reinit`) -/

/-- The memoised state of one `FunctionIdent` object: `current` is the value
recomputing `fn_hash` from today's sources would produce, `memo` the
`cached_property` slot for `fn_hash` in the ident's `__dict__`. -/
structure IdentState where
  current : String
  memo : Option String

/-- The object store of `FunctionIdent`s, by reference. -/
def IdentHeap : Type := Nat → IdentState

/-- A `CachedFunction` handle: the reference to its `FunctionIdent` plus the
`bound` receiver tuple. -/
structure Handle where
  identRef : Nat
  bound : List PyVal

/-- `CachedFunction.__get__`: accessed through the class (`instance is None`)
the handle itself is returned; through an instance, a shallow duplicate whose
`__dict__` is copied — sharing the `ident` reference — and whose `bound`
carries the receiver. -/
def dunderGet (cf : Handle) (inst : Option PyVal) : Handle :=
  match inst with
  | Option.none => cf
  | some r => { identRef := cf.identRef, bound := [r] }

def heapSet (h : IdentHeap) (r : Nat) (st : IdentState) : IdentHeap :=
  fun q => if q = r then st else h q

/-- Reading the `fn_hash` `cached_property` through a reference: the memoised
value when present, otherwise compute and memoise. -/
def readFnHash (h : IdentHeap) (r : Nat) : String × IdentHeap :=
  match (h r).memo with
  | some v => (v, h)
  | Option.none => ((h r).current, heapSet h r ⟨(h r).current, some ((h r).current)⟩)

/-- `FunctionIdent.reset`: clear the memoised `__dict__`. -/
def resetIdent (h : IdentHeap) (r : Nat) : IdentHeap :=
  heapSet h r ⟨(h r).current, Option.none⟩

/-- `CachedFunction.reinit`: reset every identity in `depend_idents`
(`deep_idents()` when recursive, else just this one — the caller passes the
list of references), then force each `fn_hash`. -/
def reinitModel (h : IdentHeap) (refs : List Nat) : IdentHeap :=
  let h1 := refs.foldl resetIdent h
  refs.foldl (fun acc r => (readFnHash acc r).2) h1

theorem resetFold_apply : ∀ (refs : List Nat) (h : IdentHeap) (q : Nat),
    (refs.foldl resetIdent h) q =
      if q ∈ refs then ⟨(h q).current, Option.none⟩ else h q
  | [], h, q => by simp
  | r0 :: rest, h, q => by
    have step : ∀ q', (resetIdent h r0) q' =
        if q' = r0 then ⟨(h q').current, Option.none⟩ else h q' := by
      intro q'
      rcases eq_or_ne q' r0 with hq | hq
      · subst hq; simp [resetIdent, heapSet]
      · simp [resetIdent, heapSet, hq]
    rw [List.foldl_cons, resetFold_apply rest (resetIdent h r0) q]
    rcases eq_or_ne q r0 with hq | hq
    · subst hq
      by_cases hm : q ∈ rest <;> simp [hm, step]
    · by_cases hm : q ∈ rest <;> simp [hm, step, hq]

theorem forceFold_apply : ∀ (refs : List Nat) (h : IdentHeap) (q : Nat),
    (refs.foldl (fun acc r => (readFnHash acc r).2) h) q =
      if q ∈ refs ∧ (h q).memo = Option.none
      then ⟨(h q).current, some ((h q).current)⟩ else h q
  | [], h, q => by simp
  | r0 :: rest, h, q => by
    have step : ∀ q', ((readFnHash h r0).2) q' =
        if q' = r0 ∧ (h r0).memo = Option.none
        then ⟨(h r0).current, some ((h r0).current)⟩ else h q' := by
      intro q'
      rcases hm : (h r0).memo with _ | v
      · rcases eq_or_ne q' r0 with hq | hq
        · subst hq; simp [readFnHash, hm, heapSet]
        · simp [readFnHash, hm, heapSet, hq]
      · rcases eq_or_ne q' r0 with hq | hq <;> simp [readFnHash, hm, hq]
    rw [List.foldl_cons, forceFold_apply rest ((readFnHash h r0).2) q]
    rcases eq_or_ne q r0 with hq | hq
    · subst hq
      rcases hm : (h q).memo with _ | v
      · by_cases hr : q ∈ rest <;> simp [hr, step, hm]
      · by_cases hr : q ∈ rest <;> simp [hr, step, hm]
    · rcases hm : (h q).memo with _ | v
      · by_cases hr : q ∈ rest <;> simp [hr, step, hq, hm]
      · by_cases hr : q ∈ rest <;> simp [hr, step, hq, hm]

/-- After `reinit` over a list of identity references, each listed identity
is memoised at its freshly recomputed value. -/
theorem reinitModel_apply (h : IdentHeap) (refs : List Nat) (q : Nat)
    (hq : q ∈ refs) :
    (reinitModel h refs) q = ⟨(h q).current, some ((h q).current)⟩ := by
  unfold reinitModel
  rw [forceFold_apply refs (refs.foldl resetIdent h) q,
    resetFold_apply refs h q]
  simp [hq]

/-! ## Support lemmas for the claims -/

theorem memOps_exists_store (p : MemPath) (s : MemState) (ch : String) (v : PyVal) :
    (memOps p).existsEntry ((memOps p).storeEntry s ch v) ch = true := by
  simp [memOps, memGetDict, alistGet_set]

theorem memOps_load_store (p : MemPath) (s : MemState) (ch : String) (v : PyVal) :
    (memOps p).loadEntry ((memOps p).storeEntry s ch v) ch = .ok v := by
  simp [memOps, memGetDict, alistGet_set]

theorem pickleOps_exists_store (dir : String) (s : PickleState) (ch : String) (v : PyVal) :
    (pickleOps dir).existsEntry ((pickleOps dir).storeEntry s ch v) ch = true := by
  simp [pickleOps, alistGet_set]

/-- The `LOAD` branch on a present, unexpired, plain stored value. -/
theorem callModel_load_plain {σ : Type} (cfg : EngineCfg) (ops : StorageOps σ)
    (fnRes v : PyVal) (ch : String) (s : σ)
    (hwhen : cfg.whenEnabled = true)
    (hex : ops.existsEntry s ch = true)
    (hnex : Storage.expired cfg ops s ch = .ok false)
    (hload : ops.loadEntry s ch = .ok v)
    (hv : v.isPlain = true) :
    callModel cfg ops fnRes ch false s =
      { result := .ok v, state := s,
        events := CallEvent.loadEv ch ::
          (if 2 ≤ cfg.verbosity then [CallEvent.logEv .remembered] else []) } := by
  cases v <;> simp_all [callModel, PyVal.isPlain]

theorem countStores_exec (cfg : EngineCfg) {σ : Type} (ops : StorageOps σ)
    (fnRes : PyVal) (ch : String) (s : σ) :
    countStores (execBranch cfg ops fnRes ch s).events = 1 ∧
    countLoads (execBranch cfg ops fnRes ch s).events = 0 ∧
    countExecs (execBranch cfg ops fnRes ch s).events = 1 := by
  by_cases h : 1 ≤ cfg.verbosity <;>
    simp [execBranch, h, countStores, countLoads, countExecs]

/-! ### Argument-normalisation lemmas (claim C4) -/

theorem alistKeys_zip {β : Type} :
    ∀ (l : List String) (as : List β), alistKeys (l.zip as) = l.take as.length
  | [], _ => by simp [alistKeys]
  | _ :: _, [] => by simp [alistKeys]
  | k :: l, a :: as => by
    simp [alistKeys, List.zip_cons_cons]
    exact alistKeys_zip l as

theorem zip_truncate {β : Type} :
    ∀ (l : List String) (as : List β), l.zip as = (l.take as.length).zip as
  | [], _ => by simp
  | _ :: _, [] => by simp
  | k :: l, a :: as => by
    simp [List.zip_cons_cons]
    exact zip_truncate l as

theorem zip_snoc {β : Type} :
    ∀ (a : List β) (l : List String) (v : β) (name : String) (rest : List String),
      l.drop a.length = name :: rest →
      l.zip (a ++ [v]) = (l.take a.length).zip a ++ [(name, v)]
  | [], l, v, name, rest, h => by
    simp only [List.length_nil, List.drop_zero] at h
    subst h
    simp [List.zip_cons_cons]
  | x :: a, l, v, name, rest, h => by
    match l with
    | [] => simp at h
    | p :: l' =>
      have h' : l'.drop a.length = name :: rest := by simpa using h
      simp only [List.cons_append, List.zip_cons_cons, List.length_cons,
        List.take_succ_cons]
      rw [zip_snoc a l' v name rest h']

/-- The congruence relation the hash-by loop preserves: equal named maps (as
mappings, with duplicate-free keys) and equal positional tails. -/
def EffRel (acc1 acc2 : List (String × PyVal) × List PyVal) : Prop :=
  (∀ k, alistGet acc1.1 k = alistGet acc2.1 k) ∧
  (alistKeys acc1.1).Nodup ∧ (alistKeys acc2.1).Nodup ∧ acc1.2 = acc2.2

theorem mapAtFold_rel (f : PyVal → PyVal) :
    ∀ (K : List String) (m1 m2 : List (String × PyVal)),
      (∀ k, alistGet m1 k = alistGet m2 k) →
      (∀ k, alistGet (K.foldl (fun m k => alistMapAt m k f) m1) k
        = alistGet (K.foldl (fun m k => alistMapAt m k f) m2) k)
  | [], m1, m2, h => h
  | k0 :: K, m1, m2, h => by
    intro k
    rw [List.foldl_cons, List.foldl_cons]
    refine mapAtFold_rel f K _ _ ?_ k
    intro k'
    rw [alistGet_mapAt, alistGet_mapAt, h, h]

theorem mapAtFold_keys (f : PyVal → PyVal) :
    ∀ (K : List String) (m : List (String × PyVal)),
      alistKeys (K.foldl (fun m k => alistMapAt m k f) m) = alistKeys m
  | [], _ => rfl
  | k0 :: K, m => by
    rw [List.foldl_cons, mapAtFold_keys f K, alistKeys_mapAt]

theorem hashByStep_rel (argNames : List String) (kw1 kw2 : List String)
    (hf : kw1.filter (fun k => decide (k ∉ argNames))
      = kw2.filter (fun k => decide (k ∉ argNames)))
    (e : HKey × (PyVal → PyVal)) (acc1 acc2 : List (String × PyVal) × List PyVal)
    (h : EffRel acc1 acc2) :
    EffRel (hashByStep argNames kw1 acc1 e) (hashByStep argNames kw2 acc2 e) := by
  obtain ⟨hget, hnd1, hnd2, hpos⟩ := h
  obtain ⟨hk, f⟩ := e
  cases hk with
  | name n =>
    refine ⟨?_, ?_, ?_, hpos⟩
    · intro k
      simp only [hashByStep, alistGet_mapAt, hget]
    · simpa [hashByStep, alistKeys_mapAt] using hnd1
    · simpa [hashByStep, alistKeys_mapAt] using hnd2
  | star =>
    exact ⟨hget, hnd1, hnd2, by simp [hashByStep, hpos]⟩
  | dstar =>
    refine ⟨?_, ?_, ?_, hpos⟩
    · intro k
      simp only [hashByStep]
      rw [hf]
      exact mapAtFold_rel f _ _ _ hget k
    · simpa [hashByStep, mapAtFold_keys] using hnd1
    · simpa [hashByStep, mapAtFold_keys] using hnd2

theorem hashByFold_rel (argNames : List String) (kw1 kw2 : List String)
    (hf : kw1.filter (fun k => decide (k ∉ argNames))
      = kw2.filter (fun k => decide (k ∉ argNames))) :
    ∀ (hbm : List (HKey × (PyVal → PyVal)))
      (acc1 acc2 : List (String × PyVal) × List PyVal), EffRel acc1 acc2 →
      EffRel (hbm.foldl (hashByStep argNames kw1) acc1)
        (hbm.foldl (hashByStep argNames kw2) acc2)
  | [], _, _, h => h
  | e :: hbm, acc1, acc2, h => by
    rw [List.foldl_cons, List.foldl_cons]
    exact hashByFold_rel argNames kw1 kw2 hf hbm _ _
      (hashByStep_rel argNames kw1 kw2 hf e acc1 acc2 h)

/-- Core congruence: two calls whose merged named maps agree as mappings,
whose positional tails agree, and whose keyword key lists agree after the
`kw.keys() - arg_names` filter, produce the same call hash. -/
theorem callHash_of_normalized_eq (ident : IdentMeta) (g : CaptureEnv)
    (b1 a1 b2 a2 : List PyVal) (kw1 kw2 : List (String × PyVal))
    (hf : (alistKeys kw1).filter (fun k => decide (k ∉ ident.argNames))
      = (alistKeys kw2).filter (fun k => decide (k ∉ ident.argNames)))
    (hmerge : ∀ k, alistGet (mergedNamed ident (b1 ++ a1) kw1) k
      = alistGet (mergedNamed ident (b2 ++ a2) kw2) k)
    (hnd1 : (alistKeys (mergedNamed ident (b1 ++ a1) kw1)).Nodup)
    (hnd2 : (alistKeys (mergedNamed ident (b2 ++ a2) kw2)).Nodup)
    (hpos : posTail ident (b1 ++ a1) = posTail ident (b2 ++ a2)) :
    callHash ident g b1 a1 kw1 = callHash ident g b2 a2 kw2 := by
  have hrel : EffRel (effPair ident b1 a1 kw1) (effPair ident b2 a2 kw2) := by
    unfold effPair
    exact hashByFold_rel ident.argNames _ _ hf ident.hashByMap _ _
      ⟨hmerge, hnd1, hnd2, hpos⟩
  exact callHash_congr ident g g b1 a1 b2 a2 kw1 kw2
    hrel.2.1 hrel.2.2.1 hrel.1 hrel.2.2.2 rfl

theorem namedPosArgs_keys_nodup (ident : IdentMeta) (fullArgs : List PyVal)
    (hpn : ident.posNames.Nodup) :
    (alistKeys (namedPosArgs ident fullArgs)).Nodup := by
  rw [namedPosArgs, alistKeys_zip]
  exact (List.take_sublist _ _).nodup hpn

theorem alistGet_mergedNamed (ident : IdentMeta) (fullArgs : List PyVal)
    (kw : List (String × PyVal)) (k : String)
    (hkw : (alistKeys kw).Nodup) (hpn : ident.posNames.Nodup) :
    alistGet (mergedNamed ident fullArgs kw) k =
      ((alistGet kw k).or
        ((alistGet (namedPosArgs ident fullArgs) k).or
          (alistGet ident.defaultArgs k))) := by
  unfold mergedNamed
  rw [alistGet_pyMerge _ _ _ hkw,
    alistGet_pyMerge _ _ _ (namedPosArgs_keys_nodup ident fullArgs hpn)]

theorem mergedNamed_nodup (ident : IdentMeta) (fullArgs : List PyVal)
    (kw : List (String × PyVal)) (hdnd : (alistKeys ident.defaultArgs).Nodup) :
    (alistKeys (mergedNamed ident fullArgs kw)).Nodup :=
  alistKeys_nodup_pyMerge _ _ (alistKeys_nodup_pyMerge _ _ hdnd)

/-- Claim C4.  For an unbound cached function, the named-argument map is
built as defaults overridden by positionally-bound names overridden by
keywords, so the passing style is irrelevant to the call hash: (a) passing
the next positional parameter positionally or by keyword, and (b) omitting
a defaulted parameter or passing its default explicitly, yield the same
call hash. -/
theorem claim_C4 (ident : IdentMeta) (g : CaptureEnv)
    (hpn : ident.posNames.Nodup)
    (hsub : ∀ n ∈ ident.posNames, n ∈ ident.argNames)
    (hdefsub : ∀ n ∈ alistKeys ident.defaultArgs, n ∈ ident.argNames)
    (hdnd : (alistKeys ident.defaultArgs).Nodup) :
    (∀ (a : List PyVal) (v : PyVal) (kw : List (String × PyVal))
      (name : String) (rest : List String),
      ident.posNames.drop a.length = name :: rest →
      (alistKeys kw).Nodup → name ∉ alistKeys kw →
      callHash ident g [] (a ++ [v]) kw =
        callHash ident g [] a (kw ++ [(name, v)])) ∧
    (∀ (args : List PyVal) (kw : List (String × PyVal)) (name : String) (d : PyVal),
      alistGet ident.defaultArgs name = some d →
      (alistKeys kw).Nodup → name ∉ alistKeys kw →
      name ∉ ident.posNames.take args.length →
      args.length ≤ ident.posNames.length →
      callHash ident g [] args kw =
        callHash ident g [] args (kw ++ [(name, d)])) := by
  constructor
  · intro a v kw name rest hdrop hkw hnkw
    have hlen : a.length < ident.posNames.length := by
      have := congrArg List.length hdrop
      simp [List.length_drop] at this
      omega
    have hnamePos : name ∈ ident.posNames := by
      have : name ∈ ident.posNames.drop a.length := by rw [hdrop]; exact List.mem_cons_self _ _
      exact List.mem_of_mem_drop this
    have hnameArg : name ∈ ident.argNames := hsub name hnamePos
    have hkw2 : (alistKeys (kw ++ [(name, v)])).Nodup := by
      simp only [alistKeys, List.map_append, List.map_cons, List.map_nil]
      rw [List.nodup_append]
      refine ⟨hkw, by simp, ?_⟩
      intro x hx
      simp only [List.mem_singleton]
      intro hxe
      subst hxe
      exact hnkw hx
    have hnameTake : name ∉ ident.posNames.take a.length := by
      intro hmem
      have hsplit : ident.posNames = ident.posNames.take a.length ++ (name :: rest) := by
        rw [← hdrop, List.take_append_drop]
      rw [hsplit] at hpn
      rw [List.nodup_append] at hpn
      exact hpn.2.2 hmem (List.mem_cons_self _ _)
    have hzip1 : namedPosArgs ident ([] ++ (a ++ [v])) =
        (ident.posNames.take a.length).zip a ++ [(name, v)] := by
      simp only [List.nil_append, namedPosArgs]
      exact zip_snoc a ident.posNames v name rest hdrop
    have hzip2 : namedPosArgs ident ([] ++ a) =
        (ident.posNames.take a.length).zip a := by
      simp only [List.nil_append, namedPosArgs]
      exact zip_truncate ident.posNames a
    have hztakeKeys : name ∉ alistKeys ((ident.posNames.take a.length).zip a) := by
      rw [alistKeys_zip]
      intro hmem
      exact hnameTake (List.take_subset _ _ hmem)
    apply callHash_of_normalized_eq
    · simp only [alistKeys, List.map_append, List.map_cons, List.map_nil,
        List.filter_append]
      have : (List.filter (fun k => decide (k ∉ ident.argNames)) [name]) = [] := by
        simp [hnameArg]
      rw [this, List.append_nil]
    · intro k
      rw [alistGet_mergedNamed _ _ _ _ hkw hpn,
        alistGet_mergedNamed _ _ _ _ hkw2 hpn, hzip1, hzip2]
      rcases eq_or_ne k name with hk | hk
      · subst hk
        simp only [alistGet_append,
          alistGet_eq_none_of_not_mem _ _ hnkw,
          alistGet_eq_none_of_not_mem _ _ hztakeKeys]
        simp [alistGet, Option.or]
      · have h1 : alistGet [(name, v)] k = Option.none := by
          simp [alistGet, Ne.symm hk]
        simp only [alistGet_append, h1, Option.or_none]
    · exact mergedNamed_nodup _ _ _ hdnd
    · exact mergedNamed_nodup _ _ _ hdnd
    · simp only [List.nil_append, posTail]
      rw [List.drop_eq_nil_of_le (by simpa using hlen),
        List.drop_eq_nil_of_le (by omega)]
  · intro args kw name d hdef hkw hnkw hntake hlen
    have hnameArg : name ∈ ident.argNames := by
      refine hdefsub name ?_
      exact (alistGet_isSome_iff_mem_keys _ _).1 (by simp [hdef])
    have hkw2 : (alistKeys (kw ++ [(name, d)])).Nodup := by
      simp only [alistKeys, List.map_append, List.map_cons, List.map_nil]
      rw [List.nodup_append]
      refine ⟨hkw, by simp, ?_⟩
      intro x hx
      simp only [List.mem_singleton]
      intro hxe
      subst hxe
      exact hnkw hx
    have hzipKeys : name ∉ alistKeys (namedPosArgs ident ([] ++ args)) := by
      simp only [List.nil_append, namedPosArgs]
      rw [alistKeys_zip]
      intro hmem
      exact hntake hmem
    apply callHash_of_normalized_eq
    · simp only [alistKeys, List.map_append, List.map_cons, List.map_nil,
        List.filter_append]
      have : (List.filter (fun k => decide (k ∉ ident.argNames)) [name]) = [] := by
        simp [hnameArg]
      rw [this, List.append_nil]
    · intro k
      rw [alistGet_mergedNamed _ _ _ _ hkw hpn,
        alistGet_mergedNamed _ _ _ _ hkw2 hpn]
      rcases eq_or_ne k name with hk | hk
      · subst hk
        simp only [alistGet_append,
          alistGet_eq_none_of_not_mem _ _ hnkw,
          alistGet_eq_none_of_not_mem _ _ hzipKeys, hdef]
        simp [alistGet, Option.or]
      · have h1 : alistGet [(name, d)] k = Option.none := by
          simp [alistGet, Ne.symm hk]
        simp only [alistGet_append, h1, Option.or_none]
    · exact mergedNamed_nodup _ _ _ hdnd
    · exact mergedNamed_nodup _ _ _ hdnd
    · rfl

theorem alistGet_filter_key {κ β : Type} [DecidableEq κ] (P : κ → Bool)
    (l : List (κ × β)) (k : κ) :
    alistGet (l.filter (fun e => P e.1)) k =
      if P k then alistGet l k else Option.none := by
  induction l with
  | nil => simp [alistGet]
  | cons e t ih =>
    obtain ⟨k0, v0⟩ := e
    rcases eq_or_ne k0 k with h0 | h0
    · subst h0
      by_cases hp : P k0 <;> simp [List.filter_cons, hp, alistGet, ih]
    · by_cases hp : P k0 <;> simp [List.filter_cons, hp, alistGet, h0, ih]

theorem memCleanupItems_no_expiry (cfg : EngineCfg) (cur : MemPath) (now : Nat)
    (hexp : cfg.expiry = Option.none) :
    ∀ m : List (MemPath × CallDict),
      memCleanupItems cfg true true cur now m =
        .ok (m.filter (fun e => !(decide (e.1.parent = cur.parent) && decide (e.1 ≠ cur))))
  | [] => rfl
  | (key, d) :: rest => by
    rw [memCleanupItems, memCleanupItems_no_expiry cfg cur now hexp rest]
    by_cases h1 : key.parent = cur.parent
    · by_cases h2 : key = cur
      · subst h2
        simp [h1, hexp, List.filter_cons, Except.map]
      · simp [h1, h2, List.filter_cons, Except.map]
    · simp [h1, List.filter_cons, Except.map]

/-! ## The claims -/

/-- Claim C2.  For every cached function: when `fn_hash_from` is configured
(static), `fn_hash` is the 16-byte digest of the `fn_hash_from` object alone
— independent of the function's body and dependencies; otherwise it is the
digest of the ordered sequence which, for each identity in
`deep_idents(past_static=False)`, takes its composed `fn_hash` when that
identity is static and its `raw_ident.fn_hash` otherwise. -/
theorem claim_C2 (g : FnGraph) (i : Nat) :
    (∀ v, (g.info i).fnHashFrom = some v →
      (fnHash g i = hexdigest ⟨16, objBytes v⟩ ∧
        ∀ g' : FnGraph, (g'.info i).fnHashFrom = some v → fnHash g' i = fnHash g i)) ∧
    ((g.info i).fnHashFrom = Option.none →
      fnHash g i = hexdigest ⟨16, strConcat ((deepIdents g i false).map
        (fun j => if isStatic g j then fnHash g j else (g.info j).rawFnHash))⟩) := by
  constructor
  · intro v hv
    have hst : isStatic g i = true := by simp [isStatic, hv]
    constructor
    · rw [fnHash_static g i hst]
      simp [staticFnHash, hv]
    · intro g' hv'
      have hst' : isStatic g' i = true := by simp [isStatic, hv']
      rw [fnHash_static g' i hst', fnHash_static g i hst]
      simp [staticFnHash, hv, hv']
  · intro hv
    have hst : isStatic g i = false := by simp [isStatic, hv]
    have hmap : (deepIdents g i false).map
        (fun j => if isStatic g j then staticFnHash g j else (g.info j).rawFnHash)
        = (deepIdents g i false).map
          (fun j => if isStatic g j then fnHash g j else (g.info j).rawFnHash) := by
      apply List.map_congr_left
      intro j _
      by_cases hs : isStatic g j
      · simp [hs, fnHash_static g j hs]
      · simp [hs]
    rw [fnHash, if_neg (by simp [hst]), hmap]

/-- A two-function dependency graph: identity 0 is non-static and depends on
the static identity 1 and one plain callable. -/
def sampleGraph : FnGraph :=
  ⟨[⟨Option.none, "rawA", [DNode.cached 1, DNode.plain 0]⟩,
    ⟨some (.int 3), "rawB", []⟩]⟩

/-- Witness for claim C2 at a concrete graph: the static identity 1 and the
non-static identity 0 of `sampleGraph`. -/
theorem claim_C2_witness :
    (fnHash sampleGraph 1 = hexdigest ⟨16, objBytes (.int 3)⟩ ∧
      ∀ g' : FnGraph, (g'.info 1).fnHashFrom = some (.int 3) →
        fnHash g' 1 = fnHash sampleGraph 1) ∧
    fnHash sampleGraph 0 = hexdigest ⟨16, strConcat ((deepIdents sampleGraph 0 false).map
      (fun j => if isStatic sampleGraph j then fnHash sampleGraph j
        else (sampleGraph.info j).rawFnHash))⟩ :=
  ⟨(claim_C2 sampleGraph 1).1 (.int 3) rfl, (claim_C2 sampleGraph 0).2 rfl⟩

/-- Claim C6, counterexample: with an expiry predicate that raises, the
failure is NOT treated as non-expired — `Storage.expired` propagates the
exception, and it escapes `_call` (here on an existing entry, where the
short-circuited refresh test reaches the expiry check). -/
theorem claim_C6_counterexample :
    Storage.expired ⟨true, 0, some (.predicate (fun _ => .error (.raised "boom")))⟩
      (memOps ⟨"f", "h"⟩) ⟨[(⟨"f", "h"⟩, [("c", (0, PyVal.int 1))])], 5⟩ "c" =
      .error (.raised "boom") ∧
    (callModel ⟨true, 0, some (.predicate (fun _ => .error (.raised "boom")))⟩
      (memOps ⟨"f", "h"⟩) (.int 1) "c" false
      ⟨[(⟨"f", "h"⟩, [("c", (0, PyVal.int 1))])], 5⟩).result =
      .error (.raised "boom") := by
  exact ⟨rfl, rfl⟩

/-- Claim C6, amended: `expired` returns false whenever no expiry is
configured; but when a configured expiry predicate raises on the entry's
checkpoint date, the exception propagates out of `expired` and out of the
call — the entry is not treated as non-expired. -/
theorem claim_C6_amended {σ : Type} (cfg : EngineCfg) (ops : StorageOps σ)
    (s : σ) (ch : String) (fnRes : PyVal) :
    (cfg.expiry = Option.none → Storage.expired cfg ops s ch = .ok false) ∧
    (∀ (pr : Nat → Except PyErr Bool) (dt : Nat) (e : PyErr),
      cfg.expiry = some (.predicate pr) → ops.checkpointDate s ch = .ok dt →
      pr dt = .error e →
      Storage.expired cfg ops s ch = .error e ∧
      (cfg.whenEnabled = true → ops.existsEntry s ch = true →
        (callModel cfg ops fnRes ch false s).result = .error e)) := by
  constructor
  · intro h
    simp [Storage.expired, h]
  · intro pr dt e hexp hdate herr
    have hexpd : Storage.expired cfg ops s ch = .error e := by
      simp only [Storage.expired, hexp, hdate, expiredDt]
      exact herr
    refine ⟨hexpd, ?_⟩
    intro hwhen hex
    simp [callModel, hwhen, hex, hexpd]

/-- Witness for claim C6: no expiry configured gives `.ok false`; a raising
predicate's error surfaces from `expired`. -/
theorem claim_C6_witness :
    Storage.expired ⟨true, 0, Option.none⟩ (memOps ⟨"f", "h"⟩) ⟨[], 0⟩ "c" = .ok false ∧
    Storage.expired ⟨true, 0, some (.predicate (fun _ => .error (.raised "oops")))⟩
      (memOps ⟨"g", "h"⟩) ⟨[(⟨"g", "h"⟩, [("c", (2, PyVal.int 1))])], 9⟩ "c" =
      .error (.raised "oops") :=
  ⟨(claim_C6_amended ⟨true, 0, Option.none⟩ (memOps ⟨"f", "h"⟩) ⟨[], 0⟩ "c"
      (PyVal.int 0)).1 rfl,
    ((claim_C6_amended ⟨true, 0, some (.predicate (fun _ => .error (.raised "oops")))⟩
      (memOps ⟨"g", "h"⟩) ⟨[(⟨"g", "h"⟩, [("c", (2, PyVal.int 1))])], 9⟩ "c"
      (PyVal.int 0)).2 (fun _ => .error (.raised "oops")) 2 (.raised "oops")
      rfl rfl rfl).1⟩

/-- Claim C7, counterexample: storing an `AwaitableValue` with `set` and
reading it back with `get` returns the unwrapped inner value, not the stored
wrapper — the round-trip law fails for wrapper values. -/
theorem claim_C7_counterexample :
    cachedGet (memOps ⟨"f", "h"⟩) ⟨[], [], [], [], []⟩ [] [] [] []
      (cachedSet (memOps ⟨"f", "h"⟩) ⟨[], [], [], [], []⟩ [] [] [] []
        (.awaitable (.int 5)) ⟨[], 0⟩) = .ok (.int 5) ∧
    PyVal.int 5 ≠ PyVal.awaitable (PyVal.int 5) := by
  refine ⟨rfl, fun h => ?_⟩
  exact PyVal.noConfusion h

/-- Claim C7, amended: after `set(v, *a)`, `get(*a)` returns `v` — unless `v`
is an `AwaitableValue`, in which case it returns the inner `v.value`. -/
theorem claim_C7_amended (p : MemPath) (ident : IdentMeta) (g : CaptureEnv)
    (bound args : List PyVal) (kw : List (String × PyVal)) (v : PyVal) (s : MemState) :
    cachedGet (memOps p) ident g bound args kw
      (cachedSet (memOps p) ident g bound args kw v s) =
      .ok (match v with | .awaitable w => w | _ => v) := by
  unfold cachedGet cachedSet
  rw [memOps_load_store]
  cases v <;> rfl

/-- Claim C8.  Handles obtained by accessing a cached method through distinct
receiver instances (or through the class) share the same `FunctionIdent`
reference; `reinit()` through one handle (resetting and re-forcing the
identities in `depend_idents`, a list that always contains this ident)
recomputes the identity every other handle observes, and all observe the
same `fn_hash` afterwards — the freshly recomputed one, now memoised. -/
theorem claim_C8 (cf : Handle) (x y : PyVal) (h : IdentHeap) (refs : List Nat)
    (hmem : cf.identRef ∈ refs) :
    (dunderGet cf (some x)).identRef = (dunderGet cf (some y)).identRef ∧
    (dunderGet cf (some x)).identRef = (dunderGet cf Option.none).identRef ∧
    (readFnHash (reinitModel h refs) (dunderGet cf (some x)).identRef).1 =
      (readFnHash (reinitModel h refs) (dunderGet cf (some y)).identRef).1 ∧
    (readFnHash (reinitModel h refs) (dunderGet cf (some x)).identRef).1 =
      (h cf.identRef).current ∧
    ((reinitModel h refs) cf.identRef).memo = some ((h cf.identRef).current) := by
  have happ := reinitModel_apply h refs cf.identRef hmem
  refine ⟨rfl, rfl, rfl, ?_, ?_⟩
  · show (readFnHash (reinitModel h refs) cf.identRef).1 = (h cf.identRef).current
    rw [readFnHash, happ]
  · rw [happ]

/-- Witness for claim C8 at a concrete heap and handle. -/
theorem claim_C8_witness :
    (dunderGet ⟨0, []⟩ (some (.int 1))).identRef
      = (dunderGet ⟨0, []⟩ (some (.int 2))).identRef ∧
    (dunderGet ⟨0, []⟩ (some (.int 1))).identRef
      = (dunderGet ⟨0, []⟩ Option.none).identRef ∧
    (readFnHash (reinitModel (fun _ => ⟨"h0", Option.none⟩) [0])
        (dunderGet ⟨0, []⟩ (some (.int 1))).identRef).1 =
      (readFnHash (reinitModel (fun _ => ⟨"h0", Option.none⟩) [0])
        (dunderGet ⟨0, []⟩ (some (.int 2))).identRef).1 ∧
    (readFnHash (reinitModel (fun _ => ⟨"h0", Option.none⟩) [0])
        (dunderGet ⟨0, []⟩ (some (.int 1))).identRef).1 =
      ((fun _ => (⟨"h0", Option.none⟩ : IdentState)) 0).current ∧
    ((reinitModel (fun _ => ⟨"h0", Option.none⟩) [0]) 0).memo =
      some (((fun _ => (⟨"h0", Option.none⟩ : IdentState)) 0).current) :=
  claim_C8 ⟨0, []⟩ (.int 1) (.int 2) (fun _ => ⟨"h0", Option.none⟩) [0]
    (List.mem_singleton.2 rfl)

/-- Claim C9, counterexample: the mappings `{"a": 1, "b": 2}` and
`{"b": 2, "a": 1}` receive EQUAL ObjectHash digests — entries are fed in
sorted key order, which deliberately erases insertion order — refuting the
claimed distinctness for this pair (the two literals are distinct mappings
in insertion order). -/
theorem claim_C9_counterexample :
    objHashStr 64 (.dict (.ofList [("a", .int 1), ("b", .int 2)])) =
      objHashStr 64 (.dict (.ofList [("b", .int 2), ("a", .int 1)])) ∧
    PyDict.ofList [("a", PyVal.int 1), ("b", PyVal.int 2)] ≠
      PyDict.ofList [("b", PyVal.int 2), ("a", PyVal.int 1)] := by
  refine ⟨by decide, fun h => ?_⟩
  have h' : PyDict.dcons "a" (.int 1) (.dcons "b" (.int 2) .dnil) =
      PyDict.dcons "b" (.int 2) (.dcons "a" (.int 1) .dnil) := h
  injection h' with h1 _ _
  exact absurd h1 (by decide)

/-- Claim C9, amended: every encoded value is preceded by its mandatory type
header; the headers keep the tuple `(1, 2)` and the list `[1, 2]` from
colliding; mapping entries are fed to the hash as key/value pairs in sorted
key order — which makes the mappings `{"a": 1, "b": 2}` and
`{"b": 2, "a": 1}` receive equal (not distinct) digests. -/
theorem claim_C9_amended :
    (∀ v : PyVal, ∃ rest, objBytes v = headerOf v ++ rest) ∧
    objHashStr 64 (.tuple (.ofList [.int 1, .int 2])) ≠
      objHashStr 64 (.list (.ofList [.int 1, .int 2])) ∧
    objHashStr 64 (.dict (.ofList [("a", .int 1), ("b", .int 2)])) =
      objHashStr 64 (.dict (.ofList [("b", .int 2), ("a", .int 1)])) ∧
    (∀ es : PyDict, objBytes (.dict es) =
      "dict:builtins:dict:" ++ toString es.len ++
        strConcat ((sortKV es.toList).map (fun p => strBytes p.1 ++ objBytes p.2))) :=
  ⟨objBytes_startsWith_header, by decide, by decide, objBytes_dict_sorted⟩

/-- Claim C10.  For a cached function on the in-memory backend with no expiry,
constructing its `MemoryStorage` eagerly runs `cleanup()`: every entry map
stored under a different `fn_hash` version of the same function (same parent
directory, different leaf) is deleted from the process-global `item_map`;
the current version's entries and entries of other functions are unchanged. -/
theorem claim_C10 (cfg : EngineCfg) (cur : MemPath) (s : MemState)
    (hexp : cfg.expiry = Option.none) :
    ∃ m', MemoryStorage.init cfg cur s = .ok ⟨m', s.now⟩ ∧
      ∀ k, alistGet m' k =
        if k.parent = cur.parent ∧ k ≠ cur then Option.none
        else alistGet s.itemMap k := by
  refine ⟨s.itemMap.filter
    (fun e => !(decide (e.1.parent = cur.parent) && decide (e.1 ≠ cur))), ?_, ?_⟩
  · unfold MemoryStorage.init MemoryStorage.cleanup
    rw [memCleanupItems_no_expiry cfg cur s.now hexp s.itemMap]
    rfl
  · intro k
    rw [alistGet_filter_key
      (fun x => !(decide (x.parent = cur.parent) && decide (x ≠ cur))) s.itemMap k]
    by_cases h1 : k.parent = cur.parent <;> by_cases h2 : k = cur <;>
      simp [h1, h2]

/-- Witness for claim C10: three stored version directories — a stale version
of the same function, the current one, and another function's. -/
theorem claim_C10_witness :
    ∃ m', MemoryStorage.init ⟨true, 1, Option.none⟩ ⟨"d/f", "h1"⟩
        ⟨[(⟨"d/f", "h0"⟩, [("c0", (1, PyVal.int 1))]),
          (⟨"d/f", "h1"⟩, [("c1", (2, PyVal.int 2))]),
          (⟨"d/g", "h2"⟩, [("c2", (3, PyVal.int 3))])], 7⟩ = .ok ⟨m', 7⟩ ∧
      ∀ k, alistGet m' k =
        if k.parent = (⟨"d/f", "h1"⟩ : MemPath).parent ∧ k ≠ ⟨"d/f", "h1"⟩
        then Option.none
        else alistGet [(⟨"d/f", "h0"⟩, [("c0", (1, PyVal.int 1))]),
          (⟨"d/f", "h1"⟩, [("c1", (2, PyVal.int 2))]),
          (⟨"d/g", "h2"⟩, [("c2", (3, PyVal.int 3))])] k :=
  claim_C10 ⟨true, 1, Option.none⟩ ⟨"d/f", "h1"⟩ _ rfl

/-- Witness for claim C4 at a concrete signature `f(x, y=7)`: positional
versus keyword passing of `y`, and omitting `y` versus passing its default
explicitly. -/
theorem claim_C4_witness :
    callHash ⟨["x", "y"], ["x", "y"], [("y", .int 7)], [], []⟩ [] []
        [.int 1, .int 2] [] =
      callHash ⟨["x", "y"], ["x", "y"], [("y", .int 7)], [], []⟩ [] []
        [.int 1] [("y", .int 2)] ∧
    callHash ⟨["x", "y"], ["x", "y"], [("y", .int 7)], [], []⟩ [] [] [.int 1] [] =
      callHash ⟨["x", "y"], ["x", "y"], [("y", .int 7)], [], []⟩ [] []
        [.int 1] [("y", .int 7)] :=
  ⟨(claim_C4 ⟨["x", "y"], ["x", "y"], [("y", .int 7)], [], []⟩ []
      (by decide) (by decide) (by decide) (by decide)).1
      [.int 1] (.int 2) [] "y" [] rfl (by decide) (by decide),
   (claim_C4 ⟨["x", "y"], ["x", "y"], [("y", .int 7)], [], []⟩ []
      (by decide) (by decide) (by decide) (by decide)).2
      [.int 1] [] "y" (.int 7) rfl (by decide) (by decide) (by decide) (by decide)⟩

/-- Claim C3, counterexample: with a capturable configured, the call hash
reads the current value of the referenced module global through
`Capturable.capture()`, so two calls with identical arguments made in
different program states produce different call hashes. -/
theorem claim_C3_counterexample :
    callHash ⟨[], [], [], [], [⟨"m.py/v", Option.none, Option.none⟩]⟩
        [("m.py/v", .int 1)] [] [] [] ≠
      callHash ⟨[], [], [], [], [⟨"m.py/v", Option.none, Option.none⟩]⟩
        [("m.py/v", .int 2)] [] [] [] := by
  decide

/-- Claim C3, amended: the call hash is a function of the argument values
(modulo the per-parameter hash-by overrides) AND of the function's captured
values.  Whenever the capture outputs agree — in particular whenever the
function has no capturables — calls whose arguments are equal under the
hash-by map yield equal call hashes, regardless of any other program
state. -/
theorem claim_C3_amended (ident : IdentMeta) :
    (∀ (g1 g2 : CaptureEnv) (b1 a1 b2 a2 : List PyVal)
      (kw1 kw2 : List (String × PyVal)),
      (alistKeys (effNamed ident b1 a1 kw1)).Nodup →
      (alistKeys (effNamed ident b2 a2 kw2)).Nodup →
      (∀ k, alistGet (effNamed ident b1 a1 kw1) k
        = alistGet (effNamed ident b2 a2 kw2) k) →
      effPos ident b1 a1 kw1 = effPos ident b2 a2 kw2 →
      ident.capturables.map (fun c => c.captureM g1)
        = ident.capturables.map (fun c => c.captureM g2) →
      callHash ident g1 b1 a1 kw1 = callHash ident g2 b2 a2 kw2) ∧
    (ident.capturables = [] →
      ∀ (g1 g2 : CaptureEnv) (bound args : List PyVal) (kw : List (String × PyVal)),
        callHash ident g1 bound args kw = callHash ident g2 bound args kw) := by
  constructor
  · intro g1 g2 b1 a1 b2 a2 kw1 kw2 hnd1 hnd2 hget hpos hcap
    exact callHash_congr ident g1 g2 b1 a1 b2 a2 kw1 kw2 hnd1 hnd2 hget hpos hcap
  · intro hnil g1 g2 bound args kw
    simp [callHash, hnil]

/-- Witness for claim C3: a `HashBy`-style override that collapses the
parameter value makes two different raw arguments hash equally. -/
theorem claim_C3_witness :
    callHash ⟨["x"], ["x"], [], [(.name "x", fun _ => .int 0)], []⟩ []
        [] [.int 1] [] =
      callHash ⟨["x"], ["x"], [], [(.name "x", fun _ => .int 0)], []⟩ []
        [] [.int 9] [] :=
  (claim_C3_amended ⟨["x"], ["x"], [], [(.name "x", fun _ => .int 0)], []⟩).1
    [] [] [] [.int 1] [] [.int 9] [] []
    (by decide) (by decide) (fun _ => rfl) rfl rfl

/-- Claim C1.  For an enabled cached function wrapping a deterministic
synchronous callable, starting from a state with no stored entry, and with
the freshly stored entry not expired at the second call: the first `call`
returns exactly the callable's value, performing exactly one store and no
load; an identical second `call` performs exactly one load and no store and
returns an equal value. -/
theorem claim_C1 (cfg : EngineCfg) (p : MemPath) (ident : IdentMeta) (g : CaptureEnv)
    (fn : List PyVal → List (String × PyVal) → PyVal)
    (bound args : List PyVal) (kw : List (String × PyVal)) (s0 : MemState)
    (hwhen : cfg.whenEnabled = true)
    (hplain : (fn (bound ++ args) kw).isPlain = true)
    (habsent : (memOps p).existsEntry s0 (callHash ident g bound args kw) = false)
    (hnotexp : Storage.expired cfg (memOps p)
      ((cachedCall cfg (memOps p) ident g fn bound args kw false s0).state)
      (callHash ident g bound args kw) = .ok false) :
    (cachedCall cfg (memOps p) ident g fn bound args kw false s0).result =
      .ok (fn (bound ++ args) kw) ∧
    (cachedCall cfg (memOps p) ident g fn bound args kw false
      (cachedCall cfg (memOps p) ident g fn bound args kw false s0).state).result =
      (cachedCall cfg (memOps p) ident g fn bound args kw false s0).result ∧
    countStores (cachedCall cfg (memOps p) ident g fn bound args kw false s0).events = 1 ∧
    countLoads (cachedCall cfg (memOps p) ident g fn bound args kw false s0).events = 0 ∧
    countLoads (cachedCall cfg (memOps p) ident g fn bound args kw false
      (cachedCall cfg (memOps p) ident g fn bound args kw false s0).state).events = 1 ∧
    countStores (cachedCall cfg (memOps p) ident g fn bound args kw false
      (cachedCall cfg (memOps p) ident g fn bound args kw false s0).state).events = 0 := by
  have h1 : cachedCall cfg (memOps p) ident g fn bound args kw false s0 =
      execBranch cfg (memOps p) (fn (bound ++ args) kw)
        (callHash ident g bound args kw) s0 := by
    rw [cachedCall]
    simp [callModel, hwhen, habsent]
  have hnotexp' : Storage.expired cfg (memOps p)
      ((memOps p).storeEntry s0 (callHash ident g bound args kw) (fn (bound ++ args) kw))
      (callHash ident g bound args kw) = .ok false := by
    rw [h1] at hnotexp
    exact hnotexp
  have h2 : cachedCall cfg (memOps p) ident g fn bound args kw false
      (cachedCall cfg (memOps p) ident g fn bound args kw false s0).state =
      { result := .ok (fn (bound ++ args) kw),
        state := (cachedCall cfg (memOps p) ident g fn bound args kw false s0).state,
        events := CallEvent.loadEv (callHash ident g bound args kw) ::
          (if 2 ≤ cfg.verbosity then [CallEvent.logEv .remembered] else []) } := by
    rw [cachedCall]
    refine callModel_load_plain cfg (memOps p) _ _ _ _ hwhen ?_ ?_ ?_ hplain
    · rw [h1]
      exact memOps_exists_store p s0 _ _
    · rw [h1]
      exact hnotexp'
    · rw [h1]
      exact memOps_load_store p s0 _ _
  refine ⟨?_, ?_, ?_, ?_, ?_, ?_⟩
  · rw [h1]; rfl
  · rw [h2, h1]; rfl
  · rw [h1]; exact (countStores_exec cfg (memOps p) _ _ s0).1
  · rw [h1]; exact (countStores_exec cfg (memOps p) _ _ s0).2.1
  · rw [h2]
    by_cases hv : 2 ≤ cfg.verbosity <;> simp [hv, countLoads]
  · rw [h2]
    by_cases hv : 2 ≤ cfg.verbosity <;> simp [hv, countStores]

/-- A one-parameter squaring callable for the concrete witnesses. -/
def squareFn : List PyVal → List (String × PyVal) → PyVal :=
  fun as _ => match as with
    | [PyVal.int n] => PyVal.int (n * n)
    | _ => PyVal.null

/-- The parameter metadata of `def square(x): ...`. -/
def squareIdent : IdentMeta := ⟨["x"], ["x"], [], [], []⟩

/-- Witness for claim C1: `square(4)` twice on a fresh in-memory backend. -/
theorem claim_C1_witness :
    (cachedCall ⟨true, 1, Option.none⟩ (memOps ⟨"sq", "h"⟩) squareIdent []
      squareFn [] [.int 4] [] false ⟨[], 0⟩).result = .ok (.int 16) ∧
    (cachedCall ⟨true, 1, Option.none⟩ (memOps ⟨"sq", "h"⟩) squareIdent []
      squareFn [] [.int 4] [] false
      (cachedCall ⟨true, 1, Option.none⟩ (memOps ⟨"sq", "h"⟩) squareIdent []
        squareFn [] [.int 4] [] false ⟨[], 0⟩).state).result =
      (cachedCall ⟨true, 1, Option.none⟩ (memOps ⟨"sq", "h"⟩) squareIdent []
        squareFn [] [.int 4] [] false ⟨[], 0⟩).result ∧
    countStores (cachedCall ⟨true, 1, Option.none⟩ (memOps ⟨"sq", "h"⟩) squareIdent []
      squareFn [] [.int 4] [] false ⟨[], 0⟩).events = 1 ∧
    countLoads (cachedCall ⟨true, 1, Option.none⟩ (memOps ⟨"sq", "h"⟩) squareIdent []
      squareFn [] [.int 4] [] false ⟨[], 0⟩).events = 0 ∧
    countLoads (cachedCall ⟨true, 1, Option.none⟩ (memOps ⟨"sq", "h"⟩) squareIdent []
      squareFn [] [.int 4] [] false
      (cachedCall ⟨true, 1, Option.none⟩ (memOps ⟨"sq", "h"⟩) squareIdent []
        squareFn [] [.int 4] [] false ⟨[], 0⟩).state).events = 1 ∧
    countStores (cachedCall ⟨true, 1, Option.none⟩ (memOps ⟨"sq", "h"⟩) squareIdent []
      squareFn [] [.int 4] [] false
      (cachedCall ⟨true, 1, Option.none⟩ (memOps ⟨"sq", "h"⟩) squareIdent []
        squareFn [] [.int 4] [] false ⟨[], 0⟩).state).events = 0 :=
  claim_C1 ⟨true, 1, Option.none⟩ ⟨"sq", "h"⟩ squareIdent [] squareFn [] [.int 4] []
    ⟨[], 0⟩ rfl rfl rfl rfl

/-- Claim C5.  On the pickle backend, when the stored entry for the call is
present but corrupt (loading it raises end-of-file; a missing file raises
not-found): an enabled, non-expired, logging call emits CORRUPTED once,
performs exactly one retry through the execute branch — re-running the
callable and storing its result once — returns that result, and afterwards
`exists` is true. -/
theorem claim_C5 (cfg : EngineCfg) (dir : String) (ident : IdentMeta) (g : CaptureEnv)
    (fn : List PyVal → List (String × PyVal) → PyVal)
    (bound args : List PyVal) (kw : List (String × PyVal)) (s0 : PickleState) (t : Nat)
    (hwhen : cfg.whenEnabled = true) (hverb : 1 ≤ cfg.verbosity)
    (hcorrupt : alistGet s0.files
      (PickleStorage.getPath dir (callHash ident g bound args kw)) = some (t, .corrupt))
    (hnotexp : Storage.expired cfg (pickleOps dir) s0
      (callHash ident g bound args kw) = .ok false) :
    (cachedCall cfg (pickleOps dir) ident g fn bound args kw false s0).result =
      .ok (fn (bound ++ args) kw) ∧
    countLog .corrupted
      (cachedCall cfg (pickleOps dir) ident g fn bound args kw false s0).events = 1 ∧
    countExecs
      (cachedCall cfg (pickleOps dir) ident g fn bound args kw false s0).events = 1 ∧
    countStores
      (cachedCall cfg (pickleOps dir) ident g fn bound args kw false s0).events = 1 ∧
    countLoads
      (cachedCall cfg (pickleOps dir) ident g fn bound args kw false s0).events = 1 ∧
    cachedExists (pickleOps dir) ident g bound args kw
      (cachedCall cfg (pickleOps dir) ident g fn bound args kw false s0).state = true := by
  have hex : (pickleOps dir).existsEntry s0 (callHash ident g bound args kw) = true := by
    simp [pickleOps, hcorrupt]
  have hload : (pickleOps dir).loadEntry s0 (callHash ident g bound args kw) =
      .error .eofError := by
    simp [pickleOps, hcorrupt]
  have hcall : cachedCall cfg (pickleOps dir) ident g fn bound args kw false s0 =
      { result := .ok (fn (bound ++ args) kw),
        state := (pickleOps dir).storeEntry s0 (callHash ident g bound args kw)
          (fn (bound ++ args) kw),
        events := [CallEvent.loadEv (callHash ident g bound args kw),
          CallEvent.logEv .corrupted, CallEvent.logEv .memorizing,
          CallEvent.execEv, CallEvent.storeEv (callHash ident g bound args kw)] } := by
    rw [cachedCall]
    simp [callModel, hwhen, hex, hnotexp, hload, execBranch, hverb]
  rw [hcall]
  refine ⟨rfl, ?_, ?_, ?_, ?_, ?_⟩
  · simp [countLog]
  · simp [countExecs]
  · simp [countStores]
  · simp [countLoads]
  · exact pickleOps_exists_store dir s0 _ _

/-- Witness for claim C5: `square(4)` against a truncated (corrupt) stored
blob. -/
theorem claim_C5_witness :
    (cachedCall ⟨true, 1, Option.none⟩ (pickleOps "d") squareIdent []
      squareFn [] [.int 4] [] false
      ⟨[(PickleStorage.getPath "d" (callHash squareIdent [] [] [.int 4] []),
        (0, Blob.corrupt))], 3⟩).result = .ok (.int 16) ∧
    countLog .corrupted (cachedCall ⟨true, 1, Option.none⟩ (pickleOps "d") squareIdent []
      squareFn [] [.int 4] [] false
      ⟨[(PickleStorage.getPath "d" (callHash squareIdent [] [] [.int 4] []),
        (0, Blob.corrupt))], 3⟩).events = 1 ∧
    countExecs (cachedCall ⟨true, 1, Option.none⟩ (pickleOps "d") squareIdent []
      squareFn [] [.int 4] [] false
      ⟨[(PickleStorage.getPath "d" (callHash squareIdent [] [] [.int 4] []),
        (0, Blob.corrupt))], 3⟩).events = 1 ∧
    countStores (cachedCall ⟨true, 1, Option.none⟩ (pickleOps "d") squareIdent []
      squareFn [] [.int 4] [] false
      ⟨[(PickleStorage.getPath "d" (callHash squareIdent [] [] [.int 4] []),
        (0, Blob.corrupt))], 3⟩).events = 1 ∧
    countLoads (cachedCall ⟨true, 1, Option.none⟩ (pickleOps "d") squareIdent []
      squareFn [] [.int 4] [] false
      ⟨[(PickleStorage.getPath "d" (callHash squareIdent [] [] [.int 4] []),
        (0, Blob.corrupt))], 3⟩).events = 1 ∧
    cachedExists (pickleOps "d") squareIdent [] [] [.int 4] []
      (cachedCall ⟨true, 1, Option.none⟩ (pickleOps "d") squareIdent []
        squareFn [] [.int 4] [] false
        ⟨[(PickleStorage.getPath "d" (callHash squareIdent [] [] [.int 4] []),
          (0, Blob.corrupt))], 3⟩).state = true :=
  claim_C5 ⟨true, 1, Option.none⟩ "d" squareIdent [] squareFn [] [.int 4] []
    ⟨[(PickleStorage.getPath "d" (callHash squareIdent [] [] [.int 4] []),
      (0, Blob.corrupt))], 3⟩ 0 rfl (by decide) rfl rfl

end Checkpointer
